import Mathlib

/-!
Verification of the `settings-rs` path-addressed settings tree.

This file gives a shallow embedding of the core data structures and
operations of the repository (`src/structs/types.rs`, `src/structs/settings.rs`,
`src/structs/shadowsettings.rs`) and proves or refutes the frozen claims
about them.

Modelling decisions, all faithful to the source:

* Rust's `Type` enum becomes the inductive `Type'` (`Type` is not a legal
  Lean name).  `f32` carries no arithmetic anywhere in the verified code,
  so the `Float` payload is modelled as an opaque bit pattern (`Nat`);
  `i32` is modelled as `Int` (no arithmetic is performed on it either).
* `HashMap<String, Type>` becomes an association list kept sorted by a
  fixed total order on keys (`keyLt`).  A `HashMap` is a set of bindings
  with unique keys and no observable order; the sorted list is a canonical
  representative, so Rust's `HashMap` equality coincides with list
  equality on canonical maps, and iteration (`for (k, v) in map`) is
  modelled as iteration in sorted key order (one of the arbitrary orders
  a `HashMap` may present).
* `key_path.split(".")` becomes `splitPath`, built on a character-level
  splitter with exactly Rust's semantics (`"".split(".") == [""]`,
  `"a..b".split(".") == ["a", "", "b"]`).
* The `Vec<Type>` stack (`global`) that `set_value` builds and then folds
  back up is modelled by `chainMaps`/`rebuildChain`: `chainMaps` is the
  extraction loop (`i` in `1 .. len-1`), `rebuildChain` is the bottom-up
  rebuild loop.  `delete_key`, which never rebuilds the chain, is
  modelled by `delete_path`/`delWalk` which reinsert only element `0` of
  the chain, exactly as the source does.
* In the source, a key is first `remove`d from a map and later
  `insert`ed again at the same key (a borrow-checker artifact); on map
  semantics this is a plain overwriting insert, which is how it appears
  here.
* File and codec I/O is reduced to its data content: a file buffer is a
  `String`, the `Format` codec's `from_str` is a function argument of
  type `String → Except String Smap`.
-/

/-- Rust `Type` (src/structs/types.rs): the closed value variant stored in a
settings tree.  `Complex` holds the canonical sorted association list that
models `HashMap<String, Type>`. -/
inductive Type' : Type where
  | Text : String → Type'
  | Switch : Bool → Type'
  | Int : Int → Type'
  | Float : Nat → Type'
  | Complex : List (String × Type') → Type'
  | Array : List Type' → Type'
  | None : Type'
deriving Repr

/-- Canonical model of `HashMap<String, Type>`: an association list sorted by
`keyLt` with unique keys. -/
abbrev Smap : Type := List (String × Type')

/-- Character-list comparison used as the fixed total order on map keys (a
modelling device: `HashMap` itself is unordered). -/
def charListLt : List Char → List Char → Bool
  | _, [] => false
  | [], _ :: _ => true
  | a :: as, b :: bs => if a = b then charListLt as bs else decide (a < b)

/-- Key order for the canonical sorted association lists. -/
def keyLt (a b : String) : Bool := charListLt a.data b.data

/-- Model of `HashMap::get` on the canonical sorted list. -/
def mapFind (k : String) : Smap → Option Type'
  | [] => none
  | (k', v') :: rest => if k = k' then some v' else mapFind k rest

/-- Model of `HashMap::insert` on the canonical sorted list: overwrite the
binding of `k` if present, otherwise add it at its sorted position. -/
def mapInsert (k : String) (v : Type') : Smap → Smap
  | [] => [(k, v)]
  | (k', v') :: rest =>
    if keyLt k k' then (k, v) :: (k', v') :: rest
    else if k = k' then (k, v) :: rest
    else (k', v') :: mapInsert k v rest

/-- Model of `HashMap::remove` (the removed value is recovered separately via
`mapFind` where the source uses the return value of `remove`). -/
def mapRemove (k : String) : Smap → Smap
  | [] => []
  | (k', v') :: rest => if k = k' then rest else (k', v') :: mapRemove k rest

/-- Iterating a map and inserting every binding into another map
(`for (k, v) in h.iter() { flat.insert(k, v) }`). -/
def insertList (src : Smap) (dst : Smap) : Smap :=
  src.foldl (fun acc e => mapInsert e.1 e.2 acc) dst

/-- Character-level model of Rust `str::split('.')`: always yields at least
one piece, empty pieces included (`"" ↦ [""]`, `"a..b" ↦ ["a", "", "b"]`). -/
def splitDot : List Char → List (List Char)
  | [] => [[]]
  | c :: cs =>
    if c = '.' then [] :: splitDot cs
    else
      match splitDot cs with
      | [] => [[c]]
      | s :: rest => (c :: s) :: rest

/-- Model of `key_path.split(".").collect::<Vec<&str>>()`. -/
def splitPath (s : String) : List String :=
  (splitDot s.data).map (fun cs => String.mk cs)

/-- Rust `Type::is_complex`. -/
def Type'.is_complex : Type' → Bool
  | Type'.Complex _ => true
  | _ => false

/-- Rust `Settings<T>` (src/structs/settings.rs) minus the `ioconfig` codec
handle, which carries no data relevant to the tree operations (where the
source consults it, it is passed explicitly, see `load_from`). -/
structure Settings : Type where
  global : Smap
deriving Repr

/-- The map inside a `Complex`, or a fresh empty map for anything else
(including absence): the way `set_value`/`delete_key` coerce an extracted
value, silently discarding a present non-`Complex` value. -/
def complexOrEmpty : Option Type' → Smap
  | some (Type'.Complex h2) => h2
  | _ => []

/-- One extraction step of `set_value`/`delete_key`: the existing `Complex`
map under `s`, or a fresh empty map when `s` is absent or holds a
non-`Complex` value. -/
def childOf (parent : Smap) (s : String) : Smap :=
  complexOrEmpty (mapFind s parent)

/-- Extraction loop of `set_value` for indices `i ≥ 1`: starting from the map
pulled out at `i = 0`, pull out (or freshly create) one `Complex` per middle
segment.  Returns the list of maps pushed onto the `global` stack.  A present
but non-`Complex` value is discarded and replaced by a fresh empty map,
exactly as in the source. -/
def chainMaps (parent : Smap) (segs : List String) : List Smap :=
  match segs with
  | [] => []
  | s :: rest => childOf parent s :: chainMaps (childOf parent s) rest

/-- Rebuild loop of `set_value` (`for i in (1..global.len()).rev()`): fold the
stack back up, inserting each element into its parent under its segment key,
then return the rebuilt top element. -/
def rebuildChain : List (Smap × String) → Type' → Type'
  | [], v => v
  | (h, k) :: tl, v => Type'.Complex (mapInsert k (rebuildChain tl v) h)

/-- Core of `Settings::set_value` on the already-split path.  `none` models
the out-of-bounds access the source would perform if the split were empty
(`path_tree.len() - 1` underflows); `splitPath` never produces `[]`, so this
branch is unreachable from `set_value`. -/
def set_path (global0 : Smap) (path : List String) (value : Type') : Option Smap :=
  match path with
  | [] => none
  | s0 :: rest =>
    match rest with
    | [] =>
      -- single segment: the extraction loop body never runs and the value is
      -- inserted directly at the top level
      some (mapInsert s0 value global0)
    | _ :: _ =>
      let h0 : Smap := childOf global0 s0
      let chain : List Smap := h0 :: chainMaps h0 (rest.dropLast)
      some (mapInsert s0 (rebuildChain (chain.zip rest) value) global0)

/-- Rust `Settings::set_value` (always returns `Ok`; the `Result` type of the
source is kept). -/
def Settings.set_value (s : Settings) (key_path : String) (value : Type') :
    Except String Settings :=
  match set_path s.global (splitPath key_path) value with
  | some m => Except.ok ⟨m⟩
  | none => Except.error "index out of bounds"

/-- Walk of `get_value` after the first segment: each further segment requires
the current value to be `Complex` and looks the segment up in it. -/
def getRest : Type' → List String → Option Type'
  | v, [] => some v
  | Type'.Complex h, s :: rest =>
    match mapFind s h with
    | some part => getRest part rest
    | none => none
  | _, _ :: _ => none

/-- Rust `Settings::get_value`.  On an empty segment list the source's loop
body would never run and the function would return its initial placeholder
`Some(Text("Empty"))`; `splitPath` never produces `[]`, so that branch is
unreachable. -/
def Settings.get_value (s : Settings) (key_path : String) : Option Type' :=
  match splitPath key_path with
  | [] => some (Type'.Text "Empty")
  | s0 :: rest =>
    match mapFind s0 s.global with
    | some part => getRest part rest
    | none => none

/-- Walk of `delete_key` along the extracted chain (elements `1 ..` of the
source's `global` stack): a missing or non-`Complex` link pushes `Type::None`
onto the stack, and the final lookup on a non-`Complex` stack top yields
`None`. -/
def delWalk : Type' → List String → Option Type'
  | Type'.Complex h, [k] => mapFind k h
  | Type'.Complex h, k :: rest =>
    (match mapFind k h with
     | some (Type'.Complex h2) => delWalk (Type'.Complex h2) rest
     | _ => delWalk Type'.None rest)
  | _, _ => none

/-- Core of `Settings::delete_key` on the already-split path, returning the
removed value and the new top map.  `none` models the out-of-bounds access on
an empty split (unreachable, as for `set_path`).  Note the asymmetry with
`set_path`, taken directly from the source: the chain is never rebuilt; only
element `0` of the stack — from which segment 1 was already removed during
extraction — is reinserted at the top level. -/
def delete_path (g : Smap) (path : List String) : Option (Option Type' × Smap) :=
  match path with
  | [] => none
  | [k] =>
    -- single segment: delete directly from the top-level map
    some (mapFind k g, mapRemove k g)
  | s0 :: s1 :: rest =>
    let h0 : Smap := childOf g s0
    some (delWalk (Type'.Complex h0) (s1 :: rest),
          mapInsert s0 (Type'.Complex (mapRemove s1 h0)) g)

/-- Rust `Settings::delete_key`, returning the removed value and the updated
settings (the source mutates `self` in place). -/
def Settings.delete_key (s : Settings) (key_path : String) :
    Option Type' × Settings :=
  match delete_path s.global (splitPath key_path) with
  | some (r, m) => (r, ⟨m⟩)
  | none => (none, s)

/-- Dot-joined parent key: `format!("{}.{}", parent_key, key)` when a parent
key is present, the key itself otherwise. -/
def parentOf (pk : Option String) (k : String) : String :=
  match pk with
  | some p => p ++ "." ++ k
  | none => k

/-- Shared flattening loop.  With `pk = some p` this is the loop inside the
`Complex` arm of `Type::flatten` (src/structs/types.rs); with `pk = none` it
is the textually identical loop of `Settings::flatten`
(src/structs/settings.rs).  Each binding is flattened with its dot-joined
parent key; a `Complex` result is spliced entry by entry into the
accumulating flat map, any other result is inserted under the joined key. -/
def flattenMapGo (pk : Option String) : List (String × Type') → Smap → Smap
  | [], flat => flat
  | (k, Type'.Complex m2) :: rest, flat =>
    -- `value.flatten(Some(parent))` is a `Complex`, so its bindings are
    -- spliced into the accumulating flat map
    flattenMapGo pk rest (insertList (flattenMapGo (some (parentOf pk k)) m2 []) flat)
  | (k, v) :: rest, flat =>
    -- a non-`Complex` value flattens to itself and is inserted under the
    -- dot-joined key
    flattenMapGo pk rest (mapInsert (parentOf pk k) v flat)
termination_by m _ => sizeOf m
decreasing_by
  all_goals simp_wf <;> omega

/-- Rust `Type::flatten`: non-`Complex` values are returned unchanged
(cloned); a `Complex` is replaced by a one-level `Complex` whose keys are the
dot-joined paths to each leaf. -/
def Type'.flatten (v : Type') (parent_key : Option String) : Type' :=
  match v with
  | Type'.Complex m => Type'.Complex (flattenMapGo parent_key m [])
  | x => x

/-- Rust `Settings::flatten`. -/
def Settings.flatten (s : Settings) : Settings :=
  ⟨flattenMapGo none s.global []⟩

/-- Rust `Settings::get_flat_hash`, a member shortcut for `flatten`. -/
def Settings.get_flat_hash (s : Settings) : Settings :=
  Settings.flatten s

/-- Rust `Settings::is_flat`: `false` as soon as any top-level value is
`Complex`, and an empty tree is not flat. -/
def Settings.is_flat (s : Settings) : Bool :=
  if s.global.any (fun e => e.2.is_complex) then false
  else if 0 < s.global.length then true else false

/-- One `set_value` call made by `from_flat` (errors are logged and skipped in
the source; `set_value` never errors on a nonempty split). -/
def setKV (acc : Smap) (k : String) (v : Type') : Smap :=
  match set_path acc (splitPath k) v with
  | some m => m
  | none => acc

/-- Rust `Settings::from_flat`: rebuild a nested tree by calling `set_value`
for every binding of a flat settings. -/
def Settings.from_flat (flat_hash : Settings) : Settings :=
  ⟨flat_hash.global.foldl (fun acc e => setKV acc e.1 e.2) []⟩

/-- Rust `impl Add for Settings` (`+`): flatten both sides, overlay the
right-hand side's flat bindings onto the left-hand side's (right wins on a
key collision), then unflatten with `from_flat`. -/
def Settings.add (s other : Settings) : Settings :=
  let flat_self := s.get_flat_hash
  let flat_other := other.get_flat_hash
  let merged : Smap :=
    flat_other.global.foldl (fun acc e => mapInsert e.1 e.2 acc) flat_self.global
  Settings.from_flat ⟨merged⟩

/-- Rust `impl AddAssign for Settings` (`+=`): flatten the right-hand side
only and `set_value` each of its flat bindings into `self` (which is *not*
flattened first). -/
def Settings.add_assign (s other : Settings) : Settings :=
  let flat_other := other.get_flat_hash
  flat_other.global.foldl
    (fun acc e =>
      match acc.set_value e.1 e.2 with
      | Except.ok s' => s'
      | Except.error _ => acc)
    s

/-- Rust `Settings::load_from` (the buffer is the file's string content, the
codec's `Format::from_str` is passed as a function): a nonempty buffer is
parsed, an empty buffer is an explicit error. -/
def Settings.load_from (s : Settings) (buf : String)
    (from_str : String → Except String Smap) : Except String Settings :=
  if 0 < buf.length then
    match from_str buf with
    | Except.ok hash => Except.ok ⟨hash⟩
    | Except.error e => Except.error e
  else Except.error "Error loading from buffer"

/-- Rust `Settings::create_from`: a nonempty buffer is parsed; an empty
buffer yields `Ok` with an empty tree (not an error). -/
def Settings.create_from (buf : String)
    (from_str : String → Except String Smap) : Except String Settings :=
  if 0 < buf.length then
    match from_str buf with
    | Except.ok hash => Except.ok ⟨hash⟩
    | Except.error e => Except.error e
  else Except.ok ⟨[]⟩

/-- Rust `ShadowSettings<T>` (src/structs/shadowsettings.rs) minus the codec
handle: a global tier plus an optional local tier (`locl`; `local` is a
reserved word in Lean). -/
structure ShadowSettings : Type where
  global : Settings
  locl : Option Settings

/-- Fill-in loop of `ShadowSettings::get_value`: copy every binding of the
global `Complex` whose key is absent from the (accumulating) local `Complex`. -/
def fillFromGlobal (value : Smap) (g : Smap) : Smap :=
  g.foldl (fun acc e => if (mapFind e.1 acc).isNone then mapInsert e.1 e.2 acc else acc) value

/-- Rust `ShadowSettings::get_value`: the local value wins when present,
except that a local `Complex` is shallowly completed with the fields of a
global `Complex` at the same path; with no local tier or no local value the
global value is returned. -/
def ShadowSettings.get_value (sh : ShadowSettings) (key_path : String) : Option Type' :=
  match sh.locl with
  | some l =>
    match l.get_value key_path with
    | none => sh.global.get_value key_path
    | some value =>
      match value with
      | Type'.Complex m =>
        match sh.global.get_value key_path with
        | some (Type'.Complex g) => some (Type'.Complex (fillFromGlobal m g))
        | _ => some (Type'.Complex m)
      | v => some v
  | none => sh.global.get_value key_path

/-!
Proof-support definitions: derived forms of the operations above (each is
proven equal to the corresponding source-shaped definition below) and the
well-formedness predicates used as hypotheses.
-/

/-- Direct recursive form of `set_path` (proven equal to it in
`set_path_eq_setSegs`): insert at the single segment, or recurse through the
extracted (or fresh) child map. -/
def setSegs (h : Smap) : List String → Type' → Smap
  | [], _ => h
  | [s], v => mapInsert s v h
  | s :: r :: rest, v =>
    mapInsert s (Type'.Complex (setSegs (childOf h s) (r :: rest) v)) h

/-- Form of `get_value` on an already-split path (proven equal in
`get_value_eq_getSegsM`). -/
def getSegsM (g : Smap) : List String → Option Type'
  | [] => some (Type'.Text "Empty")
  | s0 :: rest =>
    match mapFind s0 g with
    | some part => getRest part rest
    | none => none

/-- New value of the top-level binding touched by one `setSegs` call, as a
function of the old binding only (`setSegs` locality). -/
def bucketStep (old : Option Type') (path : List String) (v : Type') : Type' :=
  match path with
  | [] => Type'.None
  | [_] => v
  | _ :: r :: rest => Type'.Complex (setSegs (complexOrEmpty old) (r :: rest) v)

/-- Effect, on one top-level binding, of folding `set_value` over a list of
bindings (the `from_flat` loop) restricted to the bindings that touch it. -/
def applyGroup (cur : Option Type') (entries : List (String × Type')) : Option Type' :=
  entries.foldl (fun c e => some (bucketStep c (splitPath e.1) e.2)) cur

/-- Folding `set_value` over a list of bindings starting from map `g`: the
loop shared by `from_flat` and `add_assign`. -/
def foldSetSegs (g : Smap) (l : List (String × Type')) : Smap :=
  l.foldl (fun acc e => setSegs acc (splitPath e.1) e.2) g

/-- All keys of the map, prefixed with `p` and a dot: the shape of the flat
map produced for a subtree rooted at key `p`. -/
def prefixKeys (p : String) (m : Smap) : Smap :=
  m.map (fun e => (p ++ "." ++ e.1, e.2))

/-- First dot-separated segment of a key. -/
def firstSeg (s : String) : String :=
  (splitPath s).headI

/-- A key with no dot in it (it is then a single segment). -/
def dotFree (s : String) : Bool :=
  !(s.data.contains '.')

/-- Strict sortedness (hence key-uniqueness) of an association list: the
canonical-representative invariant of the `HashMap` model. -/
def sortedMap (m : Smap) : Prop :=
  m.Pairwise (fun a b => keyLt a.1 b.1 = true)

mutual
/-- Well-formed value for the flatten/unflatten round trip: every `Complex`
reachable through `Complex` nesting is nonempty and canonically sorted, and
no key at any such level contains a dot.  (`Array` contents are never
traversed by `flatten`/`from_flat`, so they are unconstrained.) -/
def wfVal : Type' → Bool
  | Type'.Complex m => !m.isEmpty && wfMap m
  | Type'.Text _ => true
  | Type'.Switch _ => true
  | Type'.Int _ => true
  | Type'.Float _ => true
  | Type'.Array _ => true
  | Type'.None => true

/-- Well-formed map: dot-free keys, adjacent keys strictly increasing,
well-formed values. -/
def wfMap : Smap → Bool
  | [] => true
  | (k, v) :: rest =>
    dotFree k && wfVal v &&
    (match rest with
     | [] => true
     | (k2, _) :: _ => keyLt k k2) &&
    wfMap rest
end

mutual
/-- Every `Complex` node reachable through `Complex` nesting is nonempty
(the condition under which nothing is lost by flattening). -/
def neVal : Type' → Bool
  | Type'.Complex m => !m.isEmpty && neMap m
  | Type'.Text _ => true
  | Type'.Switch _ => true
  | Type'.Int _ => true
  | Type'.Float _ => true
  | Type'.Array _ => true
  | Type'.None => true

/-- List form of `neVal`. -/
def neMap : Smap → Bool
  | [] => true
  | (_, v) :: rest => neVal v && neMap rest
end

/-- Intercalate a dot between character-list pieces: the inverse of
`splitDot`. -/
def joinDotChars : List (List Char) → List Char
  | [] => []
  | [p] => p
  | p :: q :: rest => p ++ '.' :: joinDotChars (q :: rest)

/-- The leaf visible at `path` in a map: the `getSegsM` walk filtered to
non-`Complex` results.  Under the well-formedness hypotheses, the flat map of
`m` binds exactly the dot-joined leaf paths to their leaves, and this is the
corresponding lookup function. -/
def leafFind (m : Smap) (path : List String) : Option Type' :=
  match getSegsM m path with
  | some v => if v.is_complex then none else some v
  | none => none

/-!
Lemmas: path splitting.
-/

theorem splitDot_ne_nil (l : List Char) : splitDot l ≠ [] := by
  induction l with
  | nil => simp [splitDot]
  | cons c cs ih =>
    unfold splitDot
    by_cases h : c = '.'
    · simp [h]
    · simp only [h, if_false]
      cases hs : splitDot cs <;> simp

theorem splitPath_ne_nil (s : String) : splitPath s ≠ [] := by
  unfold splitPath
  intro h
  exact splitDot_ne_nil s.data (List.map_eq_nil_iff.mp h)

theorem splitDot_cons_dot (cs : List Char) : splitDot ('.' :: cs) = [] :: splitDot cs := by
  simp [splitDot]

theorem splitDot_cons_ne (c : Char) (cs : List Char) (h : ¬ c = '.')
    (s : List Char) (rest : List (List Char)) (hs : splitDot cs = s :: rest) :
    splitDot (c :: cs) = (c :: s) :: rest := by
  simp [splitDot, h, hs]

theorem splitDot_of_dotFree (l : List Char) (h : '.' ∉ l) : splitDot l = [l] := by
  induction l with
  | nil => rfl
  | cons c cs ih =>
    unfold splitDot
    have hc : ¬ c = '.' := fun hc => h (hc ▸ List.mem_cons_self c cs)
    simp only [hc, if_false]
    rw [ih (fun hm => h (List.mem_cons_of_mem c hm))]

theorem string_mk_data (s : String) : String.mk s.data = s := rfl

theorem splitPath_of_dotFree (s : String) (h : dotFree s = true) : splitPath s = [s] := by
  unfold splitPath
  have hmem : '.' ∉ s.data := by
    intro hm
    unfold dotFree at h
    simp only [Bool.not_eq_true'] at h
    have : s.data.contains '.' = true := by
      simpa using List.elem_eq_true_of_mem hm
    rw [this] at h
    cases h
  rw [splitDot_of_dotFree s.data hmem]
  simp [string_mk_data]

theorem splitDot_append (a b : List Char) :
    splitDot (a ++ '.' :: b) = splitDot a ++ splitDot b := by
  induction a with
  | nil => simp [splitDot_cons_dot, splitDot]
  | cons c cs ih =>
    by_cases h : c = '.'
    · subst h
      simp only [List.cons_append, splitDot_cons_dot, ih]
    · simp only [List.cons_append]
      cases hs : splitDot cs with
      | nil => exact absurd hs (splitDot_ne_nil cs)
      | cons s rest =>
        rw [splitDot_cons_ne c cs h s rest hs]
        rw [hs] at ih
        rw [splitDot_cons_ne c (cs ++ '.' :: b) h (s) (rest ++ splitDot b) (by rw [ih]; rfl)]
        simp

theorem data_append (s t : String) : (s ++ t).data = s.data ++ t.data := rfl

theorem splitPath_append_dot (a b : String) :
    splitPath (a ++ "." ++ b) = splitPath a ++ splitPath b := by
  unfold splitPath
  have : (a ++ "." ++ b).data = a.data ++ '.' :: b.data := by
    rw [data_append, data_append]
    show a.data ++ ['.'] ++ b.data = a.data ++ '.' :: b.data
    simp
  rw [this, splitDot_append, List.map_append]

/-!
Lemmas: the key order.
-/

theorem charListLt_irrefl (l : List Char) : charListLt l l = false := by
  induction l with
  | nil => rfl
  | cons a as ih => simp [charListLt, ih]

theorem charListLt_asymm {a b : List Char} (h : charListLt a b = true) :
    charListLt b a = false := by
  induction a generalizing b with
  | nil =>
    cases b with
    | nil => simpa [charListLt] using h
    | cons x xs => simp [charListLt]
  | cons x xs ih =>
    cases b with
    | nil => simp [charListLt] at h
    | cons y ys =>
      by_cases hxy : x = y
      · subst hxy
        simp only [charListLt, if_pos rfl] at h ⊢
        exact ih h
      · have hyx : ¬ y = x := fun hc => hxy hc.symm
        simp only [charListLt, if_neg hxy, decide_eq_true_eq] at h
        simp only [charListLt, if_neg hyx, decide_eq_false_iff_not]
        exact lt_asymm h

theorem charListLt_trans {a b c : List Char} (h1 : charListLt a b = true)
    (h2 : charListLt b c = true) : charListLt a c = true := by
  induction a generalizing b c with
  | nil =>
    cases c with
    | nil =>
      cases b with
      | nil => simpa [charListLt] using h1
      | cons y ys => simp [charListLt] at h2
    | cons z zs => simp [charListLt]
  | cons x xs ih =>
    cases b with
    | nil => simp [charListLt] at h1
    | cons y ys =>
      cases c with
      | nil => simp [charListLt] at h2
      | cons z zs =>
        by_cases hxy : x = y <;> by_cases hyz : y = z
        · subst hxy; subst hyz
          simp only [charListLt, if_pos rfl] at h1 h2 ⊢
          exact ih h1 h2
        · subst hxy
          simp only [charListLt, if_pos rfl] at h1
          simp only [charListLt, if_neg hyz] at h2 ⊢
          exact h2
        · subst hyz
          simp only [charListLt, if_neg hxy] at h1
          simp only [charListLt, if_neg hxy]
          exact h1
        · have hxz : ¬ x = z := by
            intro hc
            subst hc
            simp only [charListLt, if_neg hxy, decide_eq_true_eq] at h1
            simp only [charListLt, if_neg hyz, decide_eq_true_eq] at h2
            exact absurd (lt_trans h1 h2) (lt_irrefl x)
          simp only [charListLt, if_neg hxy, decide_eq_true_eq] at h1
          simp only [charListLt, if_neg hyz, decide_eq_true_eq] at h2
          simp only [charListLt, if_neg hxz, decide_eq_true_eq]
          exact lt_trans h1 h2

theorem charListLt_conn {a b : List Char} (h1 : charListLt a b = false)
    (h2 : charListLt b a = false) : a = b := by
  induction a generalizing b with
  | nil =>
    cases b with
    | nil => rfl
    | cons y ys => simp [charListLt] at h1
  | cons x xs ih =>
    cases b with
    | nil => simp [charListLt] at h2
    | cons y ys =>
      by_cases hxy : x = y
      · subst hxy
        simp only [charListLt, if_pos rfl] at h1 h2
        rw [ih h1 h2]
      · have hyx : ¬ y = x := fun hc => hxy hc.symm
        simp only [charListLt, if_neg hxy, decide_eq_false_iff_not] at h1
        simp only [charListLt, if_neg hyx, decide_eq_false_iff_not] at h2
        exact (Ne.lt_or_lt hxy).elim (fun hlt => absurd hlt h1) (fun hlt => absurd hlt h2)

theorem keyLt_irrefl (s : String) : keyLt s s = false :=
  charListLt_irrefl s.data

theorem keyLt_asymm {a b : String} (h : keyLt a b = true) : keyLt b a = false :=
  charListLt_asymm h

theorem keyLt_trans {a b c : String} (h1 : keyLt a b = true) (h2 : keyLt b c = true) :
    keyLt a c = true :=
  charListLt_trans h1 h2

theorem keyLt_conn {a b : String} (h1 : keyLt a b = false) (h2 : keyLt b a = false) :
    a = b := by
  cases a with
  | mk da =>
    cases b with
    | mk db =>
      have : da = db := charListLt_conn h1 h2
      rw [this]

theorem keyLt_ne {a b : String} (h : keyLt a b = true) : a ≠ b := by
  intro hc
  subst hc
  rw [keyLt_irrefl] at h
  cases h

theorem keyLt_of_not (a b : String) (h1 : ¬ keyLt a b = true) (h2 : a ≠ b) :
    keyLt b a = true := by
  cases hc : keyLt b a with
  | true => rfl
  | false =>
    rw [Bool.not_eq_true] at h1
    exact absurd (keyLt_conn h1 hc) h2

/-!
Lemmas: map operations.
-/

theorem mapFind_insert_self (k : String) (v : Type') (m : Smap) :
    mapFind k (mapInsert k v m) = some v := by
  induction m with
  | nil => simp [mapInsert, mapFind]
  | cons e rest ih =>
    obtain ⟨k', v'⟩ := e
    by_cases heq : k = k'
    · subst heq
      simp [mapInsert, keyLt_irrefl, mapFind]
    · by_cases hlt : keyLt k k' = true
      · simp [mapInsert, hlt, mapFind]
      · simp [mapInsert, hlt, heq, mapFind, ih]

theorem mapFind_insert_ne (k k2 : String) (v : Type') (m : Smap) (h : k ≠ k2) :
    mapFind k (mapInsert k2 v m) = mapFind k m := by
  induction m with
  | nil => simp [mapInsert, mapFind, h]
  | cons e rest ih =>
    obtain ⟨k', v'⟩ := e
    by_cases heq : k2 = k'
    · subst heq
      simp [mapInsert, keyLt_irrefl, mapFind, h]
    · by_cases hlt : keyLt k2 k' = true
      · simp [mapInsert, hlt, mapFind, h]
      · by_cases hk : k = k'
        · simp [mapInsert, hlt, heq, mapFind, hk]
        · simp [mapInsert, hlt, heq, mapFind, hk, ih]

theorem mapFind_remove_ne (k k2 : String) (m : Smap) (h : k ≠ k2) :
    mapFind k (mapRemove k2 m) = mapFind k m := by
  induction m with
  | nil => simp [mapRemove]
  | cons e rest ih =>
    obtain ⟨k', v'⟩ := e
    by_cases heq : k2 = k'
    · subst heq
      simp [mapRemove, mapFind, h]
    · by_cases hk : k = k'
      · simp [mapRemove, heq, mapFind, hk]
      · simp [mapRemove, heq, mapFind, hk, ih]

theorem mapInsert_lt {k k' : String} (v v' : Type') (rest : Smap)
    (h : keyLt k k' = true) :
    mapInsert k v ((k', v') :: rest) = (k, v) :: (k', v') :: rest := by
  simp [mapInsert, h]

theorem mapInsert_head (k : String) (v v' : Type') (rest : Smap) :
    mapInsert k v ((k, v') :: rest) = (k, v) :: rest := by
  simp [mapInsert, keyLt_irrefl]

theorem mapInsert_gt {k k' : String} (v v' : Type') (rest : Smap)
    (h1 : ¬ keyLt k k' = true) (h2 : k ≠ k') :
    mapInsert k v ((k', v') :: rest) = (k', v') :: mapInsert k v rest := by
  simp [mapInsert, h1, h2]

theorem mapInsert_mem {e : String × Type'} {k : String} {v : Type'} {m : Smap}
    (hmem : e ∈ mapInsert k v m) : e = (k, v) ∨ e ∈ m := by
  induction m with
  | nil => simpa [mapInsert] using hmem
  | cons e' rest ih0 =>
    have ih : e ∈ mapInsert k v rest → e = (k, v) ∨ e ∈ rest := fun hx => ih0 hx
    clear ih0
    have h := hmem
    clear hmem
    obtain ⟨k', v'⟩ := e'
    by_cases heq : k = k'
    · subst heq
      rw [mapInsert_head, List.mem_cons] at h
      exact h.imp (fun hx => hx) (fun hx => List.mem_cons_of_mem _ hx)
    · by_cases hlt : keyLt k k' = true
      · rw [mapInsert_lt v v' rest hlt, List.mem_cons] at h
        exact h.imp (fun hx => hx) (fun hx => hx)
      · rw [mapInsert_gt v v' rest hlt heq, List.mem_cons] at h
        refine h.elim (fun hx => Or.inr (List.mem_cons.mpr (Or.inl hx))) (fun hx => ?_)
        exact (ih hx).imp (fun h1 => h1) (fun h1 => List.mem_cons_of_mem _ h1)

theorem mapInsert_sorted (k : String) (v : Type') (m : Smap) (h : sortedMap m) :
    sortedMap (mapInsert k v m) := by
  unfold sortedMap at h ⊢
  induction m with
  | nil => simp [mapInsert]
  | cons e rest ih =>
    obtain ⟨k', v'⟩ := e
    rw [List.pairwise_cons] at h
    obtain ⟨hall, hrest⟩ := h
    by_cases heq : k = k'
    · subst heq
      simp only [mapInsert, keyLt_irrefl, Bool.false_eq_true, if_false, if_pos rfl]
      exact List.pairwise_cons.mpr ⟨hall, hrest⟩
    · by_cases hlt : keyLt k k' = true
      · simp only [mapInsert, hlt, if_pos]
        refine List.pairwise_cons.mpr ⟨?_, List.pairwise_cons.mpr ⟨hall, hrest⟩⟩
        intro e he
        rcases List.mem_cons.mp he with he | he
        · rw [he]
          exact hlt
        · exact keyLt_trans hlt (hall e he)
      · simp only [mapInsert, hlt, if_false, heq]
        refine List.pairwise_cons.mpr ⟨?_, ih hrest⟩
        intro e he
        rcases mapInsert_mem he with he | he
        · rw [he]
          exact keyLt_of_not k k' hlt heq
        · exact hall e he

theorem insertList_sorted (src dst : Smap) (h : sortedMap dst) :
    sortedMap (insertList src dst) := by
  induction src generalizing dst with
  | nil => simpa [insertList] using h
  | cons e rest ih =>
    rw [insertList, List.foldl_cons]
    exact ih (mapInsert e.1 e.2 dst) (mapInsert_sorted e.1 e.2 dst h)

theorem mapFind_none_of_all_lt (k : String) (m : Smap)
    (h : ∀ e ∈ m, keyLt k e.1 = true) : mapFind k m = none := by
  induction m with
  | nil => rfl
  | cons e rest ih =>
    obtain ⟨k', v'⟩ := e
    have hk : keyLt k k' = true := h (k', v') (List.mem_cons_self _ _)
    rw [mapFind, if_neg (keyLt_ne hk)]
    exact ih (fun e he => h e (List.mem_cons_of_mem _ he))

theorem mapFind_head_none (k : String) (v : Type') (rest : Smap)
    (h : sortedMap ((k, v) :: rest)) : mapFind k rest = none := by
  unfold sortedMap at h
  rw [List.pairwise_cons] at h
  exact mapFind_none_of_all_lt k rest (fun e he => h.1 e he)

theorem sorted_ext (m₁ : Smap) : ∀ (m₂ : Smap), sortedMap m₁ → sortedMap m₂ →
    (∀ k, mapFind k m₁ = mapFind k m₂) → m₁ = m₂ := by
  induction m₁ with
  | nil =>
    intro m₂ _ _ h
    cases m₂ with
    | nil => rfl
    | cons e rest =>
      have := h e.1
      simp [mapFind] at this
  | cons e rest ih =>
    intro m₂ h₁ h₂ h
    obtain ⟨k, v⟩ := e
    cases m₂ with
    | nil =>
      have := h k
      simp [mapFind] at this
    | cons e₂ rest₂ =>
      obtain ⟨k₂, v₂⟩ := e₂
      have hkk : k = k₂ := by
        by_contra hne
        by_cases hlt : keyLt k k₂ = true
        · have hfind : mapFind k ((k₂, v₂) :: rest₂) = none := by
            apply mapFind_none_of_all_lt
            intro e he
            rcases List.mem_cons.mp he with he | he
            · rw [he]
              exact hlt
            · unfold sortedMap at h₂
              rw [List.pairwise_cons] at h₂
              exact keyLt_trans hlt (h₂.1 e he)
          have hk := h k
          rw [hfind] at hk
          simp [mapFind] at hk
        · have hlt₂ : keyLt k₂ k = true := keyLt_of_not k k₂ hlt hne
          have hfind : mapFind k₂ ((k, v) :: rest) = none := by
            apply mapFind_none_of_all_lt
            intro e he
            rcases List.mem_cons.mp he with he | he
            · rw [he]
              exact hlt₂
            · unfold sortedMap at h₁
              rw [List.pairwise_cons] at h₁
              exact keyLt_trans hlt₂ (h₁.1 e he)
          have hk := (h k₂).symm
          rw [hfind] at hk
          simp [mapFind] at hk
      subst hkk
      have hvv : v = v₂ := by
        have hk := h k
        simpa [mapFind] using hk
      subst hvv
      have hrest : ∀ k', mapFind k' rest = mapFind k' rest₂ := by
        intro k'
        by_cases hk' : k' = k
        · subst hk'
          rw [mapFind_head_none k' v rest h₁, mapFind_head_none k' v rest₂ h₂]
        · have hk := h k'
          simpa [mapFind, hk'] using hk
      unfold sortedMap at h₁ h₂
      rw [List.pairwise_cons] at h₁ h₂
      rw [ih rest₂ h₁.2 h₂.2 hrest]

/-!
Lemmas: the two-phase `set_value` equals its direct recursive form, and
`get_value` after `set_value` recovers the value.
-/

theorem rebuildChain_eq (rest : List String) : ∀ (h0 : Smap) (v : Type'), rest ≠ [] →
    rebuildChain ((h0 :: chainMaps h0 rest.dropLast).zip rest) v =
      Type'.Complex (setSegs h0 rest v) := by
  induction rest with
  | nil => intro h0 v hne; exact absurd rfl hne
  | cons r1 rtl ih =>
    intro h0 v _
    cases rtl with
    | nil =>
      simp [chainMaps, rebuildChain, setSegs]
    | cons r2 rest' =>
      have hd : (r1 :: r2 :: rest').dropLast = r1 :: (r2 :: rest').dropLast := rfl
      rw [hd]
      have hc : chainMaps h0 (r1 :: (r2 :: rest').dropLast) =
          childOf h0 r1 :: chainMaps (childOf h0 r1) (r2 :: rest').dropLast := rfl
      rw [hc]
      have hz : ((h0 :: childOf h0 r1 :: chainMaps (childOf h0 r1) (r2 :: rest').dropLast).zip
          (r1 :: r2 :: rest')) =
          (h0, r1) :: ((childOf h0 r1 :: chainMaps (childOf h0 r1) (r2 :: rest').dropLast).zip
            (r2 :: rest')) := rfl
      rw [hz]
      rw [rebuildChain]
      rw [ih (childOf h0 r1) v (by simp)]
      rfl

theorem set_path_eq_setSegs (g : Smap) (path : List String) (v : Type') (h : path ≠ []) :
    set_path g path v = some (setSegs g path v) := by
  cases path with
  | nil => exact absurd rfl h
  | cons s0 rest =>
    cases rest with
    | nil => rfl
    | cons r1 rtl =>
      show some (mapInsert s0 (rebuildChain ((childOf g s0 :: chainMaps (childOf g s0)
        ((r1 :: rtl).dropLast)).zip (r1 :: rtl)) v) g) = _
      rw [rebuildChain_eq (r1 :: rtl) (childOf g s0) v (by simp)]
      rfl

theorem set_value_eq (s : Settings) (kp : String) (v : Type') :
    s.set_value kp v = Except.ok ⟨setSegs s.global (splitPath kp) v⟩ := by
  unfold Settings.set_value
  rw [set_path_eq_setSegs s.global (splitPath kp) v (splitPath_ne_nil kp)]

theorem get_value_eq (s : Settings) (kp : String) :
    s.get_value kp = getSegsM s.global (splitPath kp) := by
  unfold Settings.get_value getSegsM
  cases splitPath kp <;> rfl

theorem getRest_complex (h : Smap) (r : String) (rest : List String) :
    getRest (Type'.Complex h) (r :: rest) = getSegsM h (r :: rest) := rfl

theorem getSegsM_setSegs (path : List String) : ∀ (g : Smap) (v : Type'), path ≠ [] →
    getSegsM (setSegs g path v) path = some v := by
  induction path with
  | nil => intro g v hne; exact absurd rfl hne
  | cons s rest ih =>
    intro g v _
    cases rest with
    | nil =>
      show getSegsM (mapInsert s v g) [s] = some v
      simp only [getSegsM]
      rw [mapFind_insert_self]
      show getRest v [] = some v
      simp [getRest]
    | cons r rtl =>
      show getSegsM (mapInsert s (Type'.Complex (setSegs (childOf g s) (r :: rtl) v)) g)
        (s :: r :: rtl) = some v
      simp only [getSegsM]
      rw [mapFind_insert_self]
      show getRest (Type'.Complex (setSegs (childOf g s) (r :: rtl) v)) (r :: rtl) = some v
      rw [getRest_complex]
      exact ih (childOf g s) v (by simp)

/-- C1: for every tree, every dot-separated key path (single- or
multi-segment, conflicting or not) and every value, `set_value` followed by
`get_value` on the same path returns `some` of the stored value.  This is
proved for all paths, which in particular covers all non-conflicting ones. -/
theorem C1_set_then_get (s : Settings) (p : String) (v : Type') (s' : Settings)
    (h : s.set_value p v = Except.ok s') : s'.get_value p = some v := by
  rw [set_value_eq] at h
  have hs : s' = ⟨setSegs s.global (splitPath p) v⟩ := by
    injection h with h'
    exact h'.symm
  subst hs
  rw [get_value_eq]
  exact getSegsM_setSegs (splitPath p) s.global v (splitPath_ne_nil p)

/-- Witness for C1 at a concrete input: setting `"a.b"` to `Int 7` in the
empty tree and reading it back. -/
theorem C1_set_then_get_witness :
    Settings.get_value ⟨[("a", Type'.Complex [("b", Type'.Int 7)])]⟩ "a.b" =
      some (Type'.Int 7) :=
  C1_set_then_get ⟨[]⟩ "a.b" (Type'.Int 7)
    ⟨[("a", Type'.Complex [("b", Type'.Int 7)])]⟩ rfl

/-- C8: no path string can make the tree operations fail: the split of any
path (including `""` and `"a..b"`) is nonempty, so the segment-count
arithmetic never underflows; `set_value` always returns `Ok`, and
`delete_path` (hence `delete_key`) always reaches a result instead of the
out-of-bounds branch. -/
theorem C8_no_panics (s : Settings) (kp : String) (v : Type') :
    splitPath kp ≠ [] ∧
    (∃ s', s.set_value kp v = Except.ok s') ∧
    (∃ rm, delete_path s.global (splitPath kp) = some rm ∧
      s.delete_key kp = (rm.1, ⟨rm.2⟩)) := by
  refine ⟨splitPath_ne_nil kp, ⟨_, set_value_eq s kp v⟩, ?_⟩
  unfold Settings.delete_key
  cases hsp : splitPath kp with
  | nil => exact absurd hsp (splitPath_ne_nil kp)
  | cons s0 rest =>
    cases rest with
    | nil => exact ⟨_, rfl, rfl⟩
    | cons s1 rtl => exact ⟨_, rfl, rfl⟩

/-- C10: `delete_key` on an absent multi-segment path returns `none` yet
changes the tree.  On the empty tree, deleting `"a.b"` inserts a fresh empty
`Complex` under `"a"` (so `get_value "a"` goes from `none` to
`some (Complex {})`); on the tree `{a ↦ Int 1}`, deleting `"a.b"` replaces the
non-`Complex` value at the intermediate segment `"a"` by an empty `Complex`. -/
theorem C10_delete_not_atomic :
    Settings.delete_key ⟨[]⟩ "a.b" = (none, ⟨[("a", Type'.Complex [])]⟩) ∧
    Settings.get_value ⟨[]⟩ "a" = none ∧
    Settings.get_value ⟨[("a", Type'.Complex [])]⟩ "a" = some (Type'.Complex []) ∧
    Settings.delete_key ⟨[("a", Type'.Int 1)]⟩ "a.b" =
      (none, ⟨[("a", Type'.Complex [])]⟩) ∧
    Settings.get_value ⟨[("a", Type'.Int 1)]⟩ "a" = some (Type'.Int 1) :=
  ⟨rfl, rfl, rfl, rfl, rfl⟩

/-- C2 (failing part): deleting the three-segment path `"a.b.c"` from the
tree `{a.b.c ↦ "x", a.b.e ↦ "z"}` (built with `set_value`) does return the
prior value and does make `get_value "a.b.c"` return `none` — but it also
destroys the sibling `"a.b.e"`, which the claim requires to stay intact:
`delete_key` drops the whole extracted chain below segment 1, leaving
`{a ↦ {}}`. -/
theorem C2_delete_kills_sibling :
    Settings.set_value ⟨[]⟩ "a.b.c" (Type'.Text "x") =
      Except.ok ⟨[("a", Type'.Complex [("b", Type'.Complex [("c", Type'.Text "x")])])]⟩ ∧
    Settings.set_value
        ⟨[("a", Type'.Complex [("b", Type'.Complex [("c", Type'.Text "x")])])]⟩
        "a.b.e" (Type'.Text "z") =
      Except.ok ⟨[("a", Type'.Complex
        [("b", Type'.Complex [("c", Type'.Text "x"), ("e", Type'.Text "z")])])]⟩ ∧
    Settings.get_value
        ⟨[("a", Type'.Complex
          [("b", Type'.Complex [("c", Type'.Text "x"), ("e", Type'.Text "z")])])]⟩
        "a.b.e" = some (Type'.Text "z") ∧
    Settings.delete_key
        ⟨[("a", Type'.Complex
          [("b", Type'.Complex [("c", Type'.Text "x"), ("e", Type'.Text "z")])])]⟩
        "a.b.c" = (some (Type'.Text "x"), ⟨[("a", Type'.Complex [])]⟩) ∧
    Settings.get_value ⟨[("a", Type'.Complex [])]⟩ "a.b.c" = none ∧
    Settings.get_value ⟨[("a", Type'.Complex [])]⟩ "a.b.e" = none :=
  ⟨rfl, rfl, rfl, rfl, rfl, rfl⟩

/-- C9 counterexample: `create_from` on the empty buffer is `Ok` with an
empty tree — not an error — even when the codec itself always fails, so the
claim that every buffer-decoding entry point errors on the empty buffer is
false for `create_from`. -/
theorem C9_create_from_empty_ok :
    Settings.create_from "" (fun _ => Except.error "decode failure") =
      Except.ok (⟨[]⟩ : Settings) := rfl

/-- C9 (amended): on the empty input buffer `load_from` returns an explicit
error (never an empty tree), while the `create_from` constructor returns `Ok`
with an empty tree; only `load_from` treats the empty buffer as an error. -/
theorem C9_empty_buffer (s : Settings) (from_str : String → Except String Smap) :
    Settings.load_from s "" from_str = Except.error "Error loading from buffer" ∧
    Settings.create_from "" from_str = Except.ok (⟨[]⟩ : Settings) :=
  ⟨rfl, rfl⟩

/-!
Lemmas: the `ShadowSettings` fill-in loop.
-/

theorem fillFromGlobal_find (gm : Smap) : ∀ (acc : Smap) (k : String),
    mapFind k (fillFromGlobal acc gm) =
      match mapFind k acc with
      | some v => some v
      | none => mapFind k gm := by
  induction gm with
  | nil =>
    intro acc k
    show mapFind k acc = _
    cases mapFind k acc <;> rfl
  | cons e rest ih =>
    intro acc k
    obtain ⟨k2, v2⟩ := e
    show mapFind k (fillFromGlobal
      (if (mapFind k2 acc).isNone then mapInsert k2 v2 acc else acc) rest) = _
    cases hk2 : mapFind k2 acc with
    | some w =>
      simp only [hk2, Option.isNone_some, Bool.false_eq_true, if_false]
      rw [ih acc k]
      cases hk : mapFind k acc with
      | some v => rfl
      | none =>
        have hne : k ≠ k2 := by
          intro hc
          subst hc
          rw [hk] at hk2
          cases hk2
        simp [mapFind, hne]
    | none =>
      simp only [hk2, Option.isNone_none, if_pos]
      rw [ih (mapInsert k2 v2 acc) k]
      by_cases hne : k = k2
      · subst hne
        rw [mapFind_insert_self, hk2]
        simp [mapFind]
      · rw [mapFind_insert_ne k k2 v2 acc hne]
        cases hk : mapFind k acc with
        | some v => rfl
        | none => simp [mapFind, hne]

/-- C4: reads through a `ShadowSettings` with a local tier present: a
non-`Complex` local value wins outright; a local `Complex` is returned
extended, one level deep only, with exactly the global `Complex` fields
absent from it (local fields win, global fills the gaps, nothing is merged
recursively); when the local value is `Complex` but the global value is not a
`Complex`, the local `Complex` is returned unchanged; with no local entry the
global value is returned.  The concrete example global `a ↦ {x:1, y:2}`,
local `a ↦ {x:9}`, `get "a" = {x:9, y:2}` is included. -/
theorem C4_shadow_get (g l : Settings) (p : String) :
    (∀ v, l.get_value p = some v → v.is_complex = false →
      ShadowSettings.get_value ⟨g, some l⟩ p = some v) ∧
    (∀ m gm, l.get_value p = some (Type'.Complex m) →
      g.get_value p = some (Type'.Complex gm) →
      ∃ m', ShadowSettings.get_value ⟨g, some l⟩ p = some (Type'.Complex m') ∧
        (∀ k v, mapFind k m = some v → mapFind k m' = some v) ∧
        (∀ k, mapFind k m = none → mapFind k m' = mapFind k gm)) ∧
    (∀ m, l.get_value p = some (Type'.Complex m) →
      (∀ gm, g.get_value p ≠ some (Type'.Complex gm)) →
      ShadowSettings.get_value ⟨g, some l⟩ p = some (Type'.Complex m)) ∧
    (l.get_value p = none →
      ShadowSettings.get_value ⟨g, some l⟩ p = g.get_value p) ∧
    ShadowSettings.get_value
      ⟨⟨[("a", Type'.Complex [("x", Type'.Int 1), ("y", Type'.Int 2)])]⟩,
       some ⟨[("a", Type'.Complex [("x", Type'.Int 9)])]⟩⟩ "a" =
      some (Type'.Complex [("x", Type'.Int 9), ("y", Type'.Int 2)]) := by
  refine ⟨?_, ?_, ?_, ?_, rfl⟩
  · intro v hl hnc
    simp only [ShadowSettings.get_value]
    rw [hl]
    cases v <;> simp [Type'.is_complex] at hnc ⊢
  · intro m gm hl hg
    simp only [ShadowSettings.get_value]
    rw [hl, hg]
    refine ⟨fillFromGlobal m gm, rfl, ?_, ?_⟩
    · intro k v hk
      rw [fillFromGlobal_find gm m k, hk]
    · intro k hk
      rw [fillFromGlobal_find gm m k, hk]
  · intro m hl hg
    simp only [ShadowSettings.get_value]
    rw [hl]
  · intro hl
    simp only [ShadowSettings.get_value]
    rw [hl]

/-!
Lemmas: unfolding equations for the flattening loop.
-/

theorem flattenMapGo_nil (pk : Option String) (flat : Smap) :
    flattenMapGo pk [] flat = flat := by
  simp [flattenMapGo]

theorem flattenMapGo_cons_complex (pk : Option String) (k : String)
    (m2 : List (String × Type')) (rest : List (String × Type')) (flat : Smap) :
    flattenMapGo pk ((k, Type'.Complex m2) :: rest) flat =
      flattenMapGo pk rest (insertList (flattenMapGo (some (parentOf pk k)) m2 []) flat) := by
  simp [flattenMapGo]

theorem flattenMapGo_cons_leaf (pk : Option String) (k : String) (v : Type')
    (rest : List (String × Type')) (flat : Smap) (h : v.is_complex = false) :
    flattenMapGo pk ((k, v) :: rest) flat =
      flattenMapGo pk rest (mapInsert (parentOf pk k) v flat) := by
  cases v with
  | Complex m2 => exact absurd h (by simp [Type'.is_complex])
  | Text t => simp [flattenMapGo]
  | Switch b => simp [flattenMapGo]
  | Int i => simp [flattenMapGo]
  | Float f => simp [flattenMapGo]
  | Array a => simp [flattenMapGo]
  | None => simp [flattenMapGo]

/-- C7: the two merge entry points do not agree.  On
`a = {"a" ↦ Complex {}}` and `b` the empty settings, `a + b` (which flattens
`a`, losing the empty `Complex`) yields the empty tree, while `a += b` (which
never flattens `a`) leaves `{"a" ↦ Complex {}}` in place — yet `AddAssign`'s
own documentation says it follows the same logic as `Add`. -/
theorem C7_add_vs_add_assign :
    Settings.add ⟨[("a", Type'.Complex [])]⟩ ⟨[]⟩ = ⟨[]⟩ ∧
    Settings.add_assign ⟨[("a", Type'.Complex [])]⟩ ⟨[]⟩ = ⟨[("a", Type'.Complex [])]⟩ ∧
    Settings.add ⟨[("a", Type'.Complex [])]⟩ ⟨[]⟩ ≠
      Settings.add_assign ⟨[("a", Type'.Complex [])]⟩ ⟨[]⟩ := by
  have h1 : Settings.flatten ⟨[("a", Type'.Complex [])]⟩ = ⟨[]⟩ := by
    unfold Settings.flatten
    rw [flattenMapGo_cons_complex, flattenMapGo_nil, flattenMapGo_nil]
    rfl
  have h2 : Settings.flatten ⟨[]⟩ = ⟨[]⟩ := by
    unfold Settings.flatten
    rw [flattenMapGo_nil]
  have hadd : Settings.add ⟨[("a", Type'.Complex [])]⟩ ⟨[]⟩ = ⟨[]⟩ := by
    simp only [Settings.add, Settings.get_flat_hash]
    rw [h1, h2]
    rfl
  have hassign : Settings.add_assign ⟨[("a", Type'.Complex [])]⟩ ⟨[]⟩ =
      ⟨[("a", Type'.Complex [])]⟩ := by
    simp only [Settings.add_assign, Settings.get_flat_hash]
    rw [h2]
    rfl
  refine ⟨hadd, hassign, ?_⟩
  rw [hadd, hassign]
  intro hc
  simp at hc

/-- Witness for C4 at a concrete input: a local-only binding shadows the
(empty) global tier. -/
theorem C4_shadow_get_witness :
    ShadowSettings.get_value ⟨⟨[]⟩, some ⟨[("k", Type'.Int 3)]⟩⟩ "k" =
      some (Type'.Int 3) :=
  (C4_shadow_get ⟨[]⟩ ⟨[("k", Type'.Int 3)]⟩ "k").1 (Type'.Int 3) rfl rfl

/-!
Lemmas: flattening a tree whose `Complex` nodes are all nonempty yields a
flat, nonempty map.
-/

theorem insertList_mem {e : String × Type'} : ∀ {src dst : Smap},
    e ∈ insertList src dst → e ∈ src ∨ e ∈ dst := by
  intro src
  induction src with
  | nil =>
    intro dst h
    exact Or.inr (by simpa [insertList] using h)
  | cons s rest ih =>
    intro dst h
    rw [insertList, List.foldl_cons] at h
    rcases ih (show e ∈ insertList rest (mapInsert s.1 s.2 dst) from h) with h1 | h1
    · exact Or.inl (List.mem_cons_of_mem _ h1)
    · rcases mapInsert_mem h1 with rfl | h2
      · exact Or.inl (by simp)
      · exact Or.inr h2

theorem mapInsert_ne_nil (k : String) (v : Type') (m : Smap) : mapInsert k v m ≠ [] := by
  cases m with
  | nil => simp [mapInsert]
  | cons e rest =>
    obtain ⟨k', v'⟩ := e
    simp only [mapInsert]
    split
    · simp
    · split <;> simp

theorem insertList_ne_nil (src : Smap) : ∀ (dst : Smap), dst ≠ [] →
    insertList src dst ≠ [] := by
  induction src with
  | nil =>
    intro dst h
    simpa [insertList] using h
  | cons s rest ih =>
    intro dst _
    rw [insertList, List.foldl_cons]
    exact ih (mapInsert s.1 s.2 dst) (mapInsert_ne_nil s.1 s.2 dst)

theorem flattenMapGo_values (n : Nat) : ∀ (m : List (String × Type')), sizeOf m ≤ n →
    ∀ (pk : Option String) (acc : Smap), (∀ e ∈ acc, e.2.is_complex = false) →
    ∀ e ∈ flattenMapGo pk m acc, e.2.is_complex = false := by
  induction n with
  | zero =>
    intro m hm
    cases m with
    | nil =>
      intro pk acc hacc e he
      rw [flattenMapGo_nil] at he
      exact hacc e he
    | cons hd tl =>
      exfalso
      simp only [List.cons.sizeOf_spec] at hm
      omega
  | succ n ih =>
    intro m hm
    cases m with
    | nil =>
      intro pk acc hacc e he
      rw [flattenMapGo_nil] at he
      exact hacc e he
    | cons hd tl =>
      obtain ⟨k, v⟩ := hd
      intro pk acc hacc e he
      have htl : sizeOf tl ≤ n := by
        simp only [List.cons.sizeOf_spec, Prod.mk.sizeOf_spec] at hm
        omega
      cases hv : v.is_complex with
      | false =>
        rw [flattenMapGo_cons_leaf pk k v tl acc hv] at he
        refine ih tl htl pk (mapInsert (parentOf pk k) v acc) ?_ e he
        intro e' he'
        rcases mapInsert_mem he' with rfl | h2
        · exact hv
        · exact hacc e' h2
      | true =>
        obtain ⟨m2, rfl⟩ : ∃ m2, v = Type'.Complex m2 := by
          cases v <;> simp [Type'.is_complex] at hv ⊢
        have hm2 : sizeOf m2 ≤ n := by
          simp only [List.cons.sizeOf_spec, Prod.mk.sizeOf_spec,
            Type'.Complex.sizeOf_spec] at hm
          omega
        rw [flattenMapGo_cons_complex] at he
        refine ih tl htl pk _ ?_ e he
        intro e' he'
        rcases insertList_mem he' with h2 | h2
        · exact ih m2 hm2 (some (parentOf pk k)) [] (by simp) e' h2
        · exact hacc e' h2

theorem flattenMapGo_ne (n : Nat) : ∀ (m : List (String × Type')), sizeOf m ≤ n →
    ∀ (pk : Option String) (acc : Smap), neMap m = true → (m ≠ [] ∨ acc ≠ []) →
    flattenMapGo pk m acc ≠ [] := by
  induction n with
  | zero =>
    intro m hm
    cases m with
    | nil =>
      intro pk acc _ hd
      rw [flattenMapGo_nil]
      exact hd.resolve_left (fun hc => hc rfl)
    | cons hd tl =>
      exfalso
      simp only [List.cons.sizeOf_spec] at hm
      omega
  | succ n ih =>
    intro m hm
    cases m with
    | nil =>
      intro pk acc _ hd
      rw [flattenMapGo_nil]
      exact hd.resolve_left (fun hc => hc rfl)
    | cons hd tl =>
      obtain ⟨k, v⟩ := hd
      intro pk acc hne _
      have hv : neVal v = true ∧ neMap tl = true := by
        rw [neMap] at hne
        simpa using hne
      have htl : sizeOf tl ≤ n := by
        simp only [List.cons.sizeOf_spec, Prod.mk.sizeOf_spec] at hm
        omega
      cases hc : v.is_complex with
      | false =>
        rw [flattenMapGo_cons_leaf pk k v tl acc hc]
        exact ih tl htl pk _ hv.2
          (Or.inr (mapInsert_ne_nil (parentOf pk k) v acc))
      | true =>
        obtain ⟨m2, rfl⟩ : ∃ m2, v = Type'.Complex m2 := by
          cases v <;> simp [Type'.is_complex] at hc ⊢
        have hm2 : sizeOf m2 ≤ n := by
          simp only [List.cons.sizeOf_spec, Prod.mk.sizeOf_spec,
            Type'.Complex.sizeOf_spec] at hm
          omega
        have hinner : neMap m2 = true ∧ m2 ≠ [] := by
          have h1 := hv.1
          rw [neVal] at h1
          simp only [Bool.and_eq_true, Bool.not_eq_true'] at h1
          refine ⟨h1.2, ?_⟩
          simpa [List.isEmpty_iff] using h1.1
        rw [flattenMapGo_cons_complex]
        refine ih tl htl pk _ hv.2 (Or.inr ?_)
        have hsrc : flattenMapGo (some (parentOf pk k)) m2 [] ≠ [] :=
          ih m2 hm2 (some (parentOf pk k)) [] hinner.1 (Or.inl hinner.2)
        cases hs : flattenMapGo (some (parentOf pk k)) m2 [] with
        | nil => exact absurd hs hsrc
        | cons s srest =>
          rw [insertList, List.foldl_cons]
          exact insertList_ne_nil srest (mapInsert s.1 s.2 acc)
            (mapInsert_ne_nil s.1 s.2 acc)

/-- C6 counterexample: the tree `{a ↦ Complex {}}` has a top-level entry,
but its flatten is the empty map, which `is_flat` rejects — so
`is_flat(flatten(t))` is not true for every nonempty tree. -/
theorem C6_counterexample :
    (⟨[("a", Type'.Complex [])]⟩ : Settings).global ≠ [] ∧
    Settings.is_flat (Settings.flatten ⟨[("a", Type'.Complex [])]⟩) = false := by
  constructor
  · simp
  · have h1 : Settings.flatten ⟨[("a", Type'.Complex [])]⟩ = ⟨[]⟩ := by
      unfold Settings.flatten
      rw [flattenMapGo_cons_complex, flattenMapGo_nil, flattenMapGo_nil]
      rfl
    rw [h1]
    rfl

/-- C6 (amended): for every tree with at least one top-level entry *and no
empty `Complex` node anywhere* (the exclusion the flatten edge case forces),
`is_flat` of `flatten` is `true`: the flat result is nonempty and none of its
values is `Complex`. -/
theorem C6_flatten_is_flat (t : Settings) (h1 : neMap t.global = true)
    (h2 : t.global ≠ []) : Settings.is_flat (Settings.flatten t) = true := by
  have hvals : ∀ e ∈ flattenMapGo none t.global [], e.2.is_complex = false :=
    flattenMapGo_values (sizeOf t.global) t.global le_rfl none [] (by simp)
  have hne : flattenMapGo none t.global [] ≠ [] :=
    flattenMapGo_ne (sizeOf t.global) t.global le_rfl none [] h1 (Or.inl h2)
  have hany : (flattenMapGo none t.global []).any (fun e => e.2.is_complex) = false := by
    rw [List.any_eq_false]
    intro e he
    rw [hvals e he]
    simp
  have hlen : 0 < (flattenMapGo none t.global []).length := List.length_pos.mpr hne
  unfold Settings.flatten Settings.is_flat
  rw [hany]
  simp [hlen]

/-- Witness for C6 at a concrete input: a one-leaf tree. -/
theorem C6_flatten_is_flat_witness :
    Settings.is_flat (Settings.flatten ⟨[("a", Type'.Int 1)]⟩) = true :=
  C6_flatten_is_flat ⟨[("a", Type'.Int 1)]⟩ (by simp [neMap, neVal]) (by simp)

/-!
Lemmas: the shape of the keys produced by flattening, and sortedness of the
flat map.
-/

theorem firstSeg_append_dot (b y : String) : firstSeg (b ++ "." ++ y) = firstSeg b := by
  unfold firstSeg
  rw [splitPath_append_dot]
  cases hsb : splitPath b with
  | nil => exact absurd hsb (splitPath_ne_nil b)
  | cons a tl => simp [List.headI]

theorem firstSeg_of_dotFree (k : String) (h : dotFree k = true) : firstSeg k = k := by
  unfold firstSeg
  rw [splitPath_of_dotFree k h]
  rfl

theorem flattenMapGo_keys (n : Nat) : ∀ (m : List (String × Type')), sizeOf m ≤ n →
    ∀ (pk : Option String) (acc : Smap) (e : String × Type'),
    e ∈ flattenMapGo pk m acc →
    e ∈ acc ∨ ∃ b v, (b, v) ∈ m ∧
      ((v.is_complex = false ∧ e.1 = parentOf pk b) ∨
       (v.is_complex = true ∧ ∃ y, e.1 = parentOf pk b ++ "." ++ y)) := by
  induction n with
  | zero =>
    intro m hm
    cases m with
    | nil =>
      intro pk acc e he
      rw [flattenMapGo_nil] at he
      exact Or.inl he
    | cons hd tl =>
      exfalso
      simp only [List.cons.sizeOf_spec] at hm
      omega
  | succ n ih =>
    intro m hm
    cases m with
    | nil =>
      intro pk acc e he
      rw [flattenMapGo_nil] at he
      exact Or.inl he
    | cons hd tl =>
      obtain ⟨k, v⟩ := hd
      intro pk acc e he
      have htl : sizeOf tl ≤ n := by
        simp only [List.cons.sizeOf_spec, Prod.mk.sizeOf_spec] at hm
        omega
      cases hv : v.is_complex with
      | false =>
        rw [flattenMapGo_cons_leaf pk k v tl acc hv] at he
        rcases ih tl htl pk _ e he with h | ⟨b, v2, hmem, hshape⟩
        · rcases mapInsert_mem h with rfl | h2
          · exact Or.inr ⟨k, v, List.mem_cons_self _ _, Or.inl ⟨hv, rfl⟩⟩
          · exact Or.inl h2
        · exact Or.inr ⟨b, v2, List.mem_cons_of_mem _ hmem, hshape⟩
      | true =>
        obtain ⟨m2, rfl⟩ : ∃ m2, v = Type'.Complex m2 := by
          cases v <;> simp [Type'.is_complex] at hv ⊢
        have hm2 : sizeOf m2 ≤ n := by
          simp only [List.cons.sizeOf_spec, Prod.mk.sizeOf_spec,
            Type'.Complex.sizeOf_spec] at hm
          omega
        rw [flattenMapGo_cons_complex] at he
        rcases ih tl htl pk _ e he with h | ⟨b, v2, hmem, hshape⟩
        · rcases insertList_mem h with h2 | h2
          · rcases ih m2 hm2 (some (parentOf pk k)) [] e h2 with h3 | ⟨b2, v3, _, hshape2⟩
            · cases h3
            · refine Or.inr ⟨k, Type'.Complex m2, List.mem_cons_self _ _,
                Or.inr ⟨rfl, ?_⟩⟩
              rcases hshape2 with ⟨_, he1⟩ | ⟨_, y, he1⟩
              · exact ⟨b2, by simpa [parentOf] using he1⟩
              · refine ⟨b2 ++ "." ++ y, ?_⟩
                rw [he1]
                show parentOf pk k ++ "." ++ b2 ++ "." ++ y = _
                simp [String.append_assoc]
          · exact Or.inl h2
        · exact Or.inr ⟨b, v2, List.mem_cons_of_mem _ hmem, hshape⟩

theorem flattenMapGo_sorted : ∀ (m : List (String × Type')) (pk : Option String)
    (acc : Smap), sortedMap acc → sortedMap (flattenMapGo pk m acc) := by
  intro m
  induction m with
  | nil =>
    intro pk acc hacc
    rw [flattenMapGo_nil]
    exact hacc
  | cons hd tl ih =>
    obtain ⟨k, v⟩ := hd
    intro pk acc hacc
    cases hv : v.is_complex with
    | false =>
      rw [flattenMapGo_cons_leaf pk k v tl acc hv]
      exact ih pk _ (mapInsert_sorted _ _ _ hacc)
    | true =>
      obtain ⟨m2, rfl⟩ : ∃ m2, v = Type'.Complex m2 := by
        cases v <;> simp [Type'.is_complex] at hv ⊢
      rw [flattenMapGo_cons_complex]
      exact ih pk _ (insertList_sorted _ _ hacc)

theorem insertList_find_ne (src : Smap) : ∀ (dst : Smap) (k : String),
    (∀ e ∈ src, e.1 ≠ k) → mapFind k (insertList src dst) = mapFind k dst := by
  induction src with
  | nil =>
    intro dst k _
    rfl
  | cons s rest ih =>
    intro dst k h
    rw [insertList, List.foldl_cons]
    show mapFind k (insertList rest (mapInsert s.1 s.2 dst)) = mapFind k dst
    rw [ih (mapInsert s.1 s.2 dst) k (fun e he => h e (List.mem_cons_of_mem _ he))]
    exact mapFind_insert_ne k s.1 s.2 dst
      (fun hc => h s (List.mem_cons_self _ _) hc.symm)

theorem find_eq_of_mem (m : Smap) (k : String) (v : Type') (hs : sortedMap m)
    (hmem : (k, v) ∈ m) : mapFind k m = some v := by
  induction m with
  | nil => cases hmem
  | cons e rest ih =>
    obtain ⟨k', v'⟩ := e
    rcases List.mem_cons.mp hmem with h | h
    · rw [Prod.mk.injEq] at h
      obtain ⟨h1, h2⟩ := h
      subst h1
      subst h2
      simp [mapFind]
    · unfold sortedMap at hs
      rw [List.pairwise_cons] at hs
      have hk : keyLt k' k = true := hs.1 (k, v) h
      rw [mapFind, if_neg]
      · exact ih hs.2 h
      · intro hc
        subst hc
        rw [keyLt_irrefl] at hk
        cases hk

/-!
Lemmas: a top-level leaf binding at a dot-free key survives flattening and
the merge overlay.
-/

theorem flattenMapGo_contrib_ne (m2 : List (String × Type')) (P k : String)
    (hk : dotFree k = true) (hfs : firstSeg P ≠ k) :
    ∀ e ∈ flattenMapGo (some P) m2 [], e.1 ≠ k := by
  intro e he hc
  rcases flattenMapGo_keys (sizeOf m2) m2 le_rfl (some P) [] e he with h | ⟨b, v, _, hshape⟩
  · cases h
  · have : firstSeg e.1 = firstSeg P := by
      rcases hshape with ⟨_, he1⟩ | ⟨_, y, he1⟩
      · rw [he1]
        show firstSeg (P ++ "." ++ b) = firstSeg P
        exact firstSeg_append_dot P b
      · rw [he1]
        show firstSeg (P ++ "." ++ b ++ "." ++ y) = firstSeg P
        rw [firstSeg_append_dot (P ++ "." ++ b) y, firstSeg_append_dot P b]
    rw [hc, firstSeg_of_dotFree k hk] at this
    exact hfs this.symm

theorem flattenMapGo_find_untouched : ∀ (m : List (String × Type')) (acc : Smap)
    (k : String), dotFree k = true →
    (∀ b v, (b, v) ∈ m → firstSeg b ≠ k) →
    mapFind k (flattenMapGo none m acc) = mapFind k acc := by
  intro m
  induction m with
  | nil =>
    intro acc k _ _
    rw [flattenMapGo_nil]
  | cons hd tl ih =>
    obtain ⟨b, v⟩ := hd
    intro acc k hk h
    have hb : firstSeg b ≠ k := h b v (List.mem_cons_self _ _)
    have hbne : b ≠ k := by
      intro hc
      subst hc
      exact hb (firstSeg_of_dotFree b hk)
    cases hv : v.is_complex with
    | false =>
      rw [flattenMapGo_cons_leaf none b v tl acc hv]
      rw [ih _ k hk (fun b2 v2 hm => h b2 v2 (List.mem_cons_of_mem _ hm))]
      exact mapFind_insert_ne k b v acc (fun hc => hbne hc.symm)
    | true =>
      obtain ⟨m2, rfl⟩ : ∃ m2, v = Type'.Complex m2 := by
        cases v <;> simp [Type'.is_complex] at hv ⊢
      rw [flattenMapGo_cons_complex]
      rw [ih _ k hk (fun b2 v2 hm => h b2 v2 (List.mem_cons_of_mem _ hm))]
      exact insertList_find_ne _ acc k (flattenMapGo_contrib_ne m2 (parentOf none b) k hk hb)

theorem flattenMapGo_find_leaf : ∀ (m : List (String × Type')) (acc : Smap)
    (k : String) (w : Type'), dotFree k = true → sortedMap m →
    mapFind k m = some w → w.is_complex = false →
    (∀ b v, (b, v) ∈ m → b ≠ k → firstSeg b ≠ k) →
    mapFind k (flattenMapGo none m acc) = some w := by
  intro m
  induction m with
  | nil =>
    intro acc k w _ _ hfind _ _
    cases hfind
  | cons hd tl ih =>
    obtain ⟨b, v⟩ := hd
    intro acc k w hk hs hfind hw h
    unfold sortedMap at hs
    rw [List.pairwise_cons] at hs
    by_cases hbk : b = k
    · subst hbk
      have hvw : w = v := by
        rw [mapFind, if_pos rfl] at hfind
        injection hfind with h'
        exact h'.symm
      subst hvw
      rw [flattenMapGo_cons_leaf none b w tl acc hw]
      rw [flattenMapGo_find_untouched tl _ b hk ?_]
      · exact mapFind_insert_self b w acc
      · intro b2 v2 hm
        have hlt : keyLt b b2 = true := hs.1 (b2, v2) hm
        have hne : b2 ≠ b := fun hc2 => keyLt_ne hlt hc2.symm
        exact h b2 v2 (List.mem_cons_of_mem _ hm) hne
    · have hfs : firstSeg b ≠ k := h b v (List.mem_cons_self _ _) hbk
      have hfind2 : mapFind k tl = some w := by
        rw [mapFind, if_neg (fun hc => hbk hc.symm)] at hfind
        exact hfind
      cases hv : v.is_complex with
      | false =>
        rw [flattenMapGo_cons_leaf none b v tl acc hv]
        exact ih _ k w hk hs.2 hfind2 hw
          (fun b2 v2 hm hne => h b2 v2 (List.mem_cons_of_mem _ hm) hne)
      | true =>
        obtain ⟨m2, rfl⟩ : ∃ m2, v = Type'.Complex m2 := by
          cases v <;> simp [Type'.is_complex] at hv ⊢
        rw [flattenMapGo_cons_complex]
        exact ih _ k w hk hs.2 hfind2 hw
          (fun b2 v2 hm hne => h b2 v2 (List.mem_cons_of_mem _ hm) hne)

/-!
Lemmas: the overlay fold of `Add`, and the per-binding effect of the
`from_flat` fold.
-/

theorem overlay_mem {e : String × Type'} : ∀ {l init : Smap},
    e ∈ l.foldl (fun acc e2 => mapInsert e2.1 e2.2 acc) init → e ∈ l ∨ e ∈ init := by
  intro l
  induction l with
  | nil =>
    intro init h
    exact Or.inr (by simpa using h)
  | cons s rest ih =>
    intro init h
    rw [List.foldl_cons] at h
    rcases ih h with h1 | h1
    · exact Or.inl (List.mem_cons_of_mem _ h1)
    · rcases mapInsert_mem h1 with rfl | h2
      · exact Or.inl (by simp)
      · exact Or.inr h2

theorem overlay_sorted : ∀ (l init : Smap), sortedMap init →
    sortedMap (l.foldl (fun acc e2 => mapInsert e2.1 e2.2 acc) init) := by
  intro l
  induction l with
  | nil =>
    intro init h
    simpa using h
  | cons s rest ih =>
    intro init h
    rw [List.foldl_cons]
    exact ih _ (mapInsert_sorted s.1 s.2 init h)

theorem overlay_find_not_mem : ∀ (l init : Smap) (k : String),
    (∀ e ∈ l, e.1 ≠ k) →
    mapFind k (l.foldl (fun acc e2 => mapInsert e2.1 e2.2 acc) init) = mapFind k init := by
  intro l
  induction l with
  | nil =>
    intro init k _
    rfl
  | cons s rest ih =>
    intro init k h
    rw [List.foldl_cons]
    rw [ih _ k (fun e he => h e (List.mem_cons_of_mem _ he))]
    exact mapFind_insert_ne k s.1 s.2 init (fun hc => h s (List.mem_cons_self _ _) hc.symm)

theorem overlay_find_of_mem : ∀ (l : Smap) (init : Smap) (k : String) (w : Type'),
    sortedMap l → mapFind k l = some w →
    mapFind k (l.foldl (fun acc e2 => mapInsert e2.1 e2.2 acc) init) = some w := by
  intro l
  induction l with
  | nil =>
    intro init k w _ hfind
    cases hfind
  | cons s rest ih =>
    obtain ⟨b, v⟩ := s
    intro init k w hs hfind
    unfold sortedMap at hs
    rw [List.pairwise_cons] at hs
    rw [List.foldl_cons]
    by_cases hbk : k = b
    · subst hbk
      have hvw : w = v := by
        rw [mapFind, if_pos rfl] at hfind
        injection hfind with h'
        exact h'.symm
      subst hvw
      rw [overlay_find_not_mem rest _ k ?_]
      · exact mapFind_insert_self k w init
      · intro e he hc
        have hlt : keyLt k e.1 = true := hs.1 e he
        exact keyLt_ne hlt hc.symm
    · have hfind2 : mapFind k rest = some w := by
        rw [mapFind, if_neg hbk] at hfind
        exact hfind
      exact ih _ k w hs.2 hfind2

theorem setSegs_find_other (g : Smap) (path : List String) (v : Type') (c : String)
    (hpath : path ≠ []) (hne : path.headI ≠ c) :
    mapFind c (setSegs g path v) = mapFind c g := by
  cases path with
  | nil => exact absurd rfl hpath
  | cons s rest =>
    have hsc : c ≠ s := fun hc => hne (by simp [List.headI, hc])
    cases rest with
    | nil => exact mapFind_insert_ne c s v g hsc
    | cons r rtl => exact mapFind_insert_ne c s _ g hsc

theorem setSegs_find_self (g : Smap) (path : List String) (v : Type') (c : String)
    (hpath : path ≠ []) (hhead : path.headI = c) :
    mapFind c (setSegs g path v) = some (bucketStep (mapFind c g) path v) := by
  cases path with
  | nil => exact absurd rfl hpath
  | cons s rest =>
    have hsc : s = c := by simpa [List.headI] using hhead
    subst hsc
    cases rest with
    | nil =>
      rw [show setSegs g [s] v = mapInsert s v g from rfl]
      rw [mapFind_insert_self]
      rfl
    | cons r rtl =>
      rw [show setSegs g (s :: r :: rtl) v =
        mapInsert s (Type'.Complex (setSegs (childOf g s) (r :: rtl) v)) g from rfl]
      rw [mapFind_insert_self]
      rfl

theorem foldSetSegs_find : ∀ (l : Smap) (g : Smap) (c : String),
    mapFind c (foldSetSegs g l) =
      applyGroup (mapFind c g) (l.filter (fun e => (splitPath e.1).headI = c)) := by
  intro l
  induction l with
  | nil =>
    intro g c
    rfl
  | cons e tl ih =>
    intro g c
    rw [show foldSetSegs g (e :: tl) =
      foldSetSegs (setSegs g (splitPath e.1) e.2) tl from rfl]
    rw [ih]
    by_cases hh : (splitPath e.1).headI = c
    · rw [List.filter_cons_of_pos (by simpa using hh)]
      rw [setSegs_find_self g (splitPath e.1) e.2 c (splitPath_ne_nil e.1) hh]
      rfl
    · rw [List.filter_cons_of_neg (by simpa using hh)]
      rw [setSegs_find_other g (splitPath e.1) e.2 c (splitPath_ne_nil e.1) hh]

theorem filter_eq_single (p : String × Type' → Bool) : ∀ (l : Smap) (k : String) (w : Type'),
    sortedMap l → mapFind k l = some w →
    (∀ e ∈ l, p e = true ↔ e.1 = k) →
    l.filter p = [(k, w)] := by
  intro l
  induction l with
  | nil =>
    intro k w _ hfind _
    cases hfind
  | cons e tl ih =>
    obtain ⟨b, v⟩ := e
    intro k w hs hfind hp
    unfold sortedMap at hs
    rw [List.pairwise_cons] at hs
    by_cases hbk : b = k
    · subst hbk
      have hvw : w = v := by
        rw [mapFind, if_pos rfl] at hfind
        injection hfind with h'
        exact h'.symm
      subst hvw
      rw [List.filter_cons_of_pos ((hp (b, w) (List.mem_cons_self _ _)).mpr rfl)]
      rw [List.filter_eq_nil_iff.mpr ?_]
      · intro e he
        rw [hp e (List.mem_cons_of_mem _ he)]
        have hlt : keyLt b e.1 = true := hs.1 e he
        exact fun hc => keyLt_ne hlt hc.symm
    · have hfind2 : mapFind k tl = some w := by
        rw [mapFind, if_neg (fun hc => hbk hc.symm)] at hfind
        exact hfind
      have hpf : p (b, v) = false := by
        rw [← Bool.not_eq_true]
        intro hc
        exact hbk ((hp (b, v) (List.mem_cons_self _ _)).mp hc)
      rw [List.filter_cons_of_neg (by simp [hpf])]
      exact ih k w hs.2 hfind2 (fun e he => hp e (List.mem_cons_of_mem _ he))

theorem setKV_eq (acc : Smap) (k : String) (v : Type') :
    setKV acc k v = setSegs acc (splitPath k) v := by
  unfold setKV
  rw [set_path_eq_setSegs acc (splitPath k) v (splitPath_ne_nil k)]

theorem from_flat_eq (s : Settings) :
    Settings.from_flat s = ⟨foldSetSegs [] s.global⟩ := by
  unfold Settings.from_flat foldSetSegs
  have hfun : (fun (acc : Smap) (e : String × Type') => setKV acc e.1 e.2) =
      (fun (acc : Smap) (e : String × Type') => setSegs acc (splitPath e.1) e.2) := by
    funext acc e
    exact setKV_eq acc e.1 e.2
  rw [hfun]

/-- After `Add`, a dot-free key holding a leaf in both trees reads back the
right-hand tree's leaf, provided no other top-level key of either tree has
that key as its first dot segment. -/
theorem add_leaf_lookup (ta tb : Settings) (k : String) (wa wb : Type')
    (hk : dotFree k = true)
    (hsa : sortedMap ta.global) (hsb : sortedMap tb.global)
    (ha : mapFind k ta.global = some wa) (hwa : wa.is_complex = false)
    (hb : mapFind k tb.global = some wb) (hwb : wb.is_complex = false)
    (hpa : ∀ b v, (b, v) ∈ ta.global → b ≠ k → firstSeg b ≠ k)
    (hpb : ∀ b v, (b, v) ∈ tb.global → b ≠ k → firstSeg b ≠ k) :
    (Settings.add ta tb).get_value k = some wb := by
  have hFA_sorted : sortedMap (flattenMapGo none ta.global []) :=
    flattenMapGo_sorted ta.global none [] (by simp [sortedMap])
  have hFB_sorted : sortedMap (flattenMapGo none tb.global []) :=
    flattenMapGo_sorted tb.global none [] (by simp [sortedMap])
  have hFB_find : mapFind k (flattenMapGo none tb.global []) = some wb :=
    flattenMapGo_find_leaf tb.global [] k wb hk hsb hb hwb hpb
  have hadd : Settings.add ta tb = Settings.from_flat
      ⟨(flattenMapGo none tb.global []).foldl (fun acc e => mapInsert e.1 e.2 acc)
        (flattenMapGo none ta.global [])⟩ := rfl
  have hmerged_find : mapFind k ((flattenMapGo none tb.global []).foldl
      (fun acc e => mapInsert e.1 e.2 acc) (flattenMapGo none ta.global [])) = some wb :=
    overlay_find_of_mem _ _ k wb hFB_sorted hFB_find
  have hmerged_sorted : sortedMap ((flattenMapGo none tb.global []).foldl
      (fun acc e => mapInsert e.1 e.2 acc) (flattenMapGo none ta.global [])) :=
    overlay_sorted _ _ hFA_sorted
  -- every binding of the overlay whose key starts with segment `k` is the
  -- `k` binding itself
  have hshape : ∀ e ∈ (flattenMapGo none tb.global []).foldl
      (fun acc e => mapInsert e.1 e.2 acc) (flattenMapGo none ta.global []),
      firstSeg e.1 = k → e.1 = k := by
    intro e he hfs
    have hsrc : e ∈ flattenMapGo none tb.global [] ∨ e ∈ flattenMapGo none ta.global [] :=
      overlay_mem he
    have hcase : ∀ (t : Settings), sortedMap t.global →
        (∀ w, mapFind k t.global = some w → w.is_complex = false) →
        (∀ b v, (b, v) ∈ t.global → b ≠ k → firstSeg b ≠ k) →
        e ∈ flattenMapGo none t.global [] → e.1 = k := by
      intro t hst hleaf hpt hme
      rcases flattenMapGo_keys (sizeOf t.global) t.global le_rfl none [] e hme with
        h0 | ⟨b, v, hmem, hsh⟩
      · cases h0
      · by_cases hbk : b = k
        · subst hbk
          rcases hsh with ⟨_, he1⟩ | ⟨hvc, y, he1⟩
          · simpa [parentOf] using he1
          · exfalso
            have hfv : mapFind b t.global = some v := find_eq_of_mem t.global b v hst hmem
            have := hleaf v hfv
            rw [hvc] at this
            cases this
        · exfalso
          have hfsb : firstSeg b ≠ k := hpt b v hmem hbk
          rcases hsh with ⟨_, he1⟩ | ⟨_, y, he1⟩
          · rw [he1] at hfs
            exact hfsb (by simpa [parentOf] using hfs)
          · rw [he1] at hfs
            rw [show parentOf none b ++ "." ++ y = b ++ "." ++ y by rfl] at hfs
            rw [firstSeg_append_dot b y] at hfs
            exact hfsb hfs
    rcases hsrc with hme | hme
    · refine hcase tb hsb ?_ hpb hme
      intro w hw
      rw [hb] at hw
      injection hw with hw'
      rw [← hw']
      exact hwb
    · refine hcase ta hsa ?_ hpa hme
      intro w hw
      rw [ha] at hw
      injection hw with hw'
      rw [← hw']
      exact hwa
  have hfilter : ((flattenMapGo none tb.global []).foldl
      (fun acc e => mapInsert e.1 e.2 acc) (flattenMapGo none ta.global [])).filter
        (fun e => (splitPath e.1).headI = k) = [(k, wb)] := by
    apply filter_eq_single _ _ k wb hmerged_sorted hmerged_find
    intro e he
    constructor
    · intro hc
      exact hshape e he (by simpa [firstSeg] using hc)
    · intro hc
      rw [hc]
      simp [splitPath_of_dotFree k hk, List.headI]
  rw [hadd, from_flat_eq, get_value_eq]
  rw [splitPath_of_dotFree k hk]
  have hfold : mapFind k (foldSetSegs []
      ((flattenMapGo none tb.global []).foldl (fun acc e => mapInsert e.1 e.2 acc)
        (flattenMapGo none ta.global []))) = some wb := by
    rw [foldSetSegs_find, hfilter]
    show applyGroup none [(k, wb)] = some wb
    unfold applyGroup
    rw [List.foldl_cons, List.foldl_nil]
    rw [splitPath_of_dotFree k hk]
    rfl
  show getSegsM _ [k] = some wb
  simp only [getSegsM]
  rw [hfold]
  show getRest wb [] = some wb
  simp [getRest]

/-- C3 counterexample: with `t1 = {k ↦ Int 1, "k.x" ↦ Int 5}` (a literal
dotted top-level key, as a decoded file or a flattened tree can contain) and
`t2 = {k ↦ Int 2}`, the claim's hypotheses hold (`t1` maps `k` to leaf `1`,
`t2` maps `k` to leaf `2`), yet `merge(t1, t2).get("k")` is the `Complex`
`{x ↦ 5}` rebuilt by `from_flat`, not `Some(Int 2)`. -/
theorem C3_counterexample :
    mapFind "k" (⟨[("k", Type'.Int 1), ("k.x", Type'.Int 5)]⟩ : Settings).global =
      some (Type'.Int 1) ∧
    mapFind "k" (⟨[("k", Type'.Int 2)]⟩ : Settings).global = some (Type'.Int 2) ∧
    (Settings.add ⟨[("k", Type'.Int 1), ("k.x", Type'.Int 5)]⟩
      ⟨[("k", Type'.Int 2)]⟩).get_value "k" ≠ some (Type'.Int 2) := by
  have hf1 : Settings.flatten ⟨[("k", Type'.Int 1), ("k.x", Type'.Int 5)]⟩ =
      ⟨[("k", Type'.Int 1), ("k.x", Type'.Int 5)]⟩ := by
    unfold Settings.flatten
    rw [flattenMapGo_cons_leaf none "k" (Type'.Int 1) [("k.x", Type'.Int 5)] [] rfl,
      flattenMapGo_cons_leaf none "k.x" (Type'.Int 5) [] _ rfl, flattenMapGo_nil]
    rfl
  have hf2 : Settings.flatten ⟨[("k", Type'.Int 2)]⟩ = ⟨[("k", Type'.Int 2)]⟩ := by
    unfold Settings.flatten
    rw [flattenMapGo_cons_leaf none "k" (Type'.Int 2) [] [] rfl, flattenMapGo_nil]
    rfl
  have hadd : Settings.add ⟨[("k", Type'.Int 1), ("k.x", Type'.Int 5)]⟩
      ⟨[("k", Type'.Int 2)]⟩ = ⟨[("k", Type'.Complex [("x", Type'.Int 5)])]⟩ := by
    rw [show Settings.add ⟨[("k", Type'.Int 1), ("k.x", Type'.Int 5)]⟩
        ⟨[("k", Type'.Int 2)]⟩ = Settings.from_flat
        ⟨(Settings.flatten ⟨[("k", Type'.Int 2)]⟩).global.foldl
          (fun acc e => mapInsert e.1 e.2 acc)
          (Settings.flatten ⟨[("k", Type'.Int 1), ("k.x", Type'.Int 5)]⟩).global⟩ from rfl]
    rw [hf1, hf2]
    rfl
  refine ⟨rfl, rfl, ?_⟩
  rw [hadd]
  intro hc
  rw [show Settings.get_value ⟨[("k", Type'.Complex [("x", Type'.Int 5)])]⟩ "k" =
    some (Type'.Complex [("x", Type'.Int 5)]) from rfl] at hc
  simp at hc

/-- C3 (amended): merge is right-biased last-writer-wins at a key `k`,
provided `k` is a plain (dot-free) key and — the restriction the
counterexample forces — no *other* top-level key of either tree has `k` as
its first dot segment: then `merge(t1, t2).get(k) = Some(2)` and
`merge(t2, t1).get(k) = Some(1)`.  (Trees are canonical sorted maps, the
model of `HashMap`.) -/
theorem C3_merge_right_bias (t1 t2 : Settings) (k : String)
    (hk : dotFree k = true)
    (hs1 : sortedMap t1.global) (hs2 : sortedMap t2.global)
    (h1 : mapFind k t1.global = some (Type'.Int 1))
    (h2 : mapFind k t2.global = some (Type'.Int 2))
    (hp1 : ∀ b v, (b, v) ∈ t1.global → b ≠ k → firstSeg b ≠ k)
    (hp2 : ∀ b v, (b, v) ∈ t2.global → b ≠ k → firstSeg b ≠ k) :
    (Settings.add t1 t2).get_value k = some (Type'.Int 2) ∧
    (Settings.add t2 t1).get_value k = some (Type'.Int 1) :=
  ⟨add_leaf_lookup t1 t2 k (Type'.Int 1) (Type'.Int 2) hk hs1 hs2 h1 rfl h2 rfl hp1 hp2,
   add_leaf_lookup t2 t1 k (Type'.Int 2) (Type'.Int 1) hk hs2 hs1 h2 rfl h1 rfl hp2 hp1⟩

/-- Witness for the amended C3 at concrete one-binding trees. -/
theorem C3_merge_right_bias_witness :
    (Settings.add ⟨[("k", Type'.Int 1)]⟩ ⟨[("k", Type'.Int 2)]⟩).get_value "k" =
      some (Type'.Int 2) ∧
    (Settings.add ⟨[("k", Type'.Int 2)]⟩ ⟨[("k", Type'.Int 1)]⟩).get_value "k" =
      some (Type'.Int 1) :=
  C3_merge_right_bias ⟨[("k", Type'.Int 1)]⟩ ⟨[("k", Type'.Int 2)]⟩ "k" rfl
    (by simp [sortedMap]) (by simp [sortedMap]) rfl rfl
    (by
      intro b v hm hne
      simp only [List.mem_singleton, Prod.mk.injEq] at hm
      exact absurd hm.1 hne)
    (by
      intro b v hm hne
      simp only [List.mem_singleton, Prod.mk.injEq] at hm
      exact absurd hm.1 hne)

/-!
Lemmas: joining and splitting dot paths are mutually inverse, and the key
order is invariant under prefixing.
-/

theorem splitDot_pieces_dotFree (l : List Char) : ∀ p ∈ splitDot l, '.' ∉ p := by
  induction l with
  | nil =>
    intro p hp
    simp only [splitDot, List.mem_singleton] at hp
    simp [hp]
  | cons c cs ih =>
    intro p hp
    by_cases hc : c = '.'
    · subst hc
      rw [splitDot_cons_dot] at hp
      rcases List.mem_cons.mp hp with rfl | hp2
      · simp
      · exact ih p hp2
    · cases hs : splitDot cs with
      | nil => exact absurd hs (splitDot_ne_nil cs)
      | cons s rest =>
        rw [splitDot_cons_ne c cs hc s rest hs] at hp
        rcases List.mem_cons.mp hp with rfl | hp2
        · intro hmem
          rcases List.mem_cons.mp hmem with hd | hd
          · exact hc hd.symm
          · exact ih s (hs ▸ List.mem_cons_self _ _) hd
        · exact ih p (hs ▸ List.mem_cons_of_mem _ hp2)

theorem joinDot_splitDot (l : List Char) : joinDotChars (splitDot l) = l := by
  induction l with
  | nil => rfl
  | cons c cs ih =>
    by_cases hc : c = '.'
    · subst hc
      rw [splitDot_cons_dot]
      cases hs : splitDot cs with
      | nil => exact absurd hs (splitDot_ne_nil cs)
      | cons q rest =>
        rw [show joinDotChars ([] :: q :: rest) = [] ++ '.' :: joinDotChars (q :: rest)
          from rfl]
        rw [← hs, ih]
        rfl
    · cases hs : splitDot cs with
      | nil => exact absurd hs (splitDot_ne_nil cs)
      | cons s rest =>
        rw [splitDot_cons_ne c cs hc s rest hs]
        cases rest with
        | nil =>
          rw [show joinDotChars [c :: s] = c :: s from rfl]
          rw [hs] at ih
          rw [show joinDotChars [s] = s from rfl] at ih
          rw [ih]
        | cons r rest2 =>
          rw [show joinDotChars ((c :: s) :: r :: rest2) =
            (c :: s) ++ '.' :: joinDotChars (r :: rest2) from rfl]
          rw [hs] at ih
          rw [show joinDotChars (s :: r :: rest2) =
            s ++ '.' :: joinDotChars (r :: rest2) from rfl] at ih
          rw [show ((c :: s) ++ '.' :: joinDotChars (r :: rest2)) =
            c :: (s ++ '.' :: joinDotChars (r :: rest2)) from rfl]
          rw [ih]

theorem splitDot_joinDot : ∀ (pieces : List (List Char)), pieces ≠ [] →
    (∀ p ∈ pieces, '.' ∉ p) → splitDot (joinDotChars pieces) = pieces := by
  intro pieces
  induction pieces with
  | nil => intro h; exact absurd rfl h
  | cons p rest ih =>
    intro _ hdf
    cases rest with
    | nil =>
      rw [show joinDotChars [p] = p from rfl]
      exact splitDot_of_dotFree p (hdf p (List.mem_cons_self _ _))
    | cons q rest2 =>
      rw [show joinDotChars (p :: q :: rest2) = p ++ '.' :: joinDotChars (q :: rest2)
        from rfl]
      rw [splitDot_append]
      rw [splitDot_of_dotFree p (hdf p (List.mem_cons_self _ _))]
      rw [ih (by simp) (fun x hx => hdf x (List.mem_cons_of_mem _ hx))]
      rfl

theorem charListLt_append_cancel : ∀ (p a b : List Char),
    charListLt (p ++ a) (p ++ b) = charListLt a b := by
  intro p
  induction p with
  | nil => intro a b; rfl
  | cons c cs ih =>
    intro a b
    show charListLt (c :: (cs ++ a)) (c :: (cs ++ b)) = _
    simp [charListLt, ih]

theorem keyLt_prefixed (c a b : String) :
    keyLt (c ++ "." ++ a) (c ++ "." ++ b) = keyLt a b := by
  unfold keyLt
  rw [show (c ++ "." ++ a).data = (c.data ++ ['.']) ++ a.data by simp [data_append]]
  rw [show (c ++ "." ++ b).data = (c.data ++ ['.']) ++ b.data by simp [data_append]]
  exact charListLt_append_cancel (c.data ++ ['.']) a.data b.data

theorem append_dot_inj (c a b : String) (h : c ++ "." ++ a = c ++ "." ++ b) : a = b := by
  have hd : (c ++ "." ++ a).data = (c ++ "." ++ b).data := by rw [h]
  rw [show (c ++ "." ++ a).data = (c.data ++ ['.']) ++ a.data by simp [data_append]] at hd
  rw [show (c ++ "." ++ b).data = (c.data ++ ['.']) ++ b.data by simp [data_append]] at hd
  have : a.data = b.data := by
    exact List.append_cancel_left hd
  cases a with
  | mk da =>
    cases b with
    | mk db => exact congrArg String.mk this

theorem ne_append_dot (c y : String) : c ≠ c ++ "." ++ y := by
  intro h
  have hd : c.data.length = (c ++ "." ++ y).data.length := by rw [← h]
  rw [show (c ++ "." ++ y).data = (c.data ++ ['.']) ++ y.data by simp [data_append]] at hd
  simp at hd

/-!
Lemmas: prefixing all keys of a map commutes with the map operations, and a
flat map built under a parent key is the prefixed form of the flat map built
with no parent.
-/

theorem prefixKeys_comp (c k : String) (l : Smap) :
    prefixKeys (c ++ "." ++ k) l = prefixKeys c (prefixKeys k l) := by
  unfold prefixKeys
  rw [List.map_map]
  apply List.map_congr_left
  intro e _
  show (c ++ "." ++ k ++ "." ++ e.1, e.2) = (c ++ "." ++ (k ++ "." ++ e.1), e.2)
  rw [Prod.mk.injEq]
  refine ⟨?_, rfl⟩
  simp [String.append_assoc]

theorem mapInsert_prefixed (c k : String) (v : Type') : ∀ (l : Smap),
    mapInsert (c ++ "." ++ k) v (prefixKeys c l) = prefixKeys c (mapInsert k v l) := by
  intro l
  induction l with
  | nil => rfl
  | cons e rest ih =>
    obtain ⟨k', v'⟩ := e
    show mapInsert (c ++ "." ++ k) v ((c ++ "." ++ k', v') :: prefixKeys c rest) = _
    by_cases hlt : keyLt k k' = true
    · rw [mapInsert_lt v v' (prefixKeys c rest) (by rw [keyLt_prefixed]; exact hlt)]
      rw [mapInsert_lt v v' rest hlt]
      rfl
    · by_cases heq : k = k'
      · subst heq
        rw [mapInsert_head (c ++ "." ++ k) v v' (prefixKeys c rest)]
        rw [mapInsert_head k v v' rest]
        rfl
      · rw [mapInsert_gt v v' (prefixKeys c rest)
          (by rw [keyLt_prefixed]; exact hlt)
          (fun hc => heq (append_dot_inj c k k' hc))]
        rw [mapInsert_gt v v' rest hlt heq]
        show (c ++ "." ++ k', v') :: mapInsert (c ++ "." ++ k) v (prefixKeys c rest) = _
        rw [ih]
        rfl

theorem insertList_prefixed (c : String) : ∀ (src dst : Smap),
    insertList (prefixKeys c src) (prefixKeys c dst) = prefixKeys c (insertList src dst) := by
  intro src
  induction src with
  | nil => intro dst; rfl
  | cons e rest ih =>
    intro dst
    show insertList ((c ++ "." ++ e.1, e.2) :: prefixKeys c rest) (prefixKeys c dst) = _
    rw [insertList, List.foldl_cons]
    show insertList (prefixKeys c rest) (mapInsert (c ++ "." ++ e.1) e.2 (prefixKeys c dst)) = _
    rw [mapInsert_prefixed c e.1 e.2 dst, ih (mapInsert e.1 e.2 dst)]
    rfl

theorem prefixKeys_sorted (c : String) (l : Smap) (h : sortedMap l) :
    sortedMap (prefixKeys c l) := by
  unfold sortedMap at h ⊢
  unfold prefixKeys
  rw [List.pairwise_map]
  refine h.imp ?_
  intro a b hab
  show keyLt (c ++ "." ++ a.1) (c ++ "." ++ b.1) = true
  rw [keyLt_prefixed]
  exact hab

theorem prefixKeys_find_prefixed (c y : String) : ∀ (l : Smap),
    mapFind (c ++ "." ++ y) (prefixKeys c l) = mapFind y l := by
  intro l
  induction l with
  | nil => rfl
  | cons e rest ih =>
    obtain ⟨k', v'⟩ := e
    show mapFind (c ++ "." ++ y) ((c ++ "." ++ k', v') :: prefixKeys c rest) = _
    by_cases heq : y = k'
    · subst heq
      simp [mapFind]
    · rw [mapFind, if_neg (fun hc => heq (append_dot_inj c y k' hc))]
      rw [mapFind, if_neg heq]
      exact ih

theorem prefixKeys_find_self (c : String) : ∀ (l : Smap),
    mapFind c (prefixKeys c l) = none := by
  intro l
  induction l with
  | nil => rfl
  | cons e rest ih =>
    obtain ⟨k', v'⟩ := e
    show mapFind c ((c ++ "." ++ k', v') :: prefixKeys c rest) = none
    rw [mapFind, if_neg (ne_append_dot c k')]
    exact ih

theorem prefixKeys_mem {c : String} {e : String × Type'} : ∀ {l : Smap},
    e ∈ prefixKeys c l → ∃ y v, e = (c ++ "." ++ y, v) ∧ (y, v) ∈ l := by
  intro l he
  unfold prefixKeys at he
  rcases List.mem_map.mp he with ⟨a, ha, rfl⟩
  exact ⟨a.1, a.2, rfl, ha⟩

theorem flattenMapGo_prefixed (n : Nat) : ∀ (m : List (String × Type')), sizeOf m ≤ n →
    ∀ (P : String) (acc : Smap),
    flattenMapGo (some P) m (prefixKeys P acc) = prefixKeys P (flattenMapGo none m acc) := by
  induction n with
  | zero =>
    intro m hm
    cases m with
    | nil =>
      intro P acc
      rw [flattenMapGo_nil, flattenMapGo_nil]
    | cons hd tl =>
      exfalso
      simp only [List.cons.sizeOf_spec] at hm
      omega
  | succ n ih =>
    intro m hm
    cases m with
    | nil =>
      intro P acc
      rw [flattenMapGo_nil, flattenMapGo_nil]
    | cons hd tl =>
      obtain ⟨k, v⟩ := hd
      intro P acc
      have htl : sizeOf tl ≤ n := by
        simp only [List.cons.sizeOf_spec, Prod.mk.sizeOf_spec] at hm
        omega
      cases hv : v.is_complex with
      | false =>
        rw [flattenMapGo_cons_leaf (some P) k v tl _ hv]
        rw [flattenMapGo_cons_leaf none k v tl _ hv]
        rw [show parentOf (some P) k = P ++ "." ++ k from rfl]
        rw [show parentOf none k = k from rfl]
        rw [mapInsert_prefixed P k v acc]
        exact ih tl htl P (mapInsert k v acc)
      | true =>
        obtain ⟨m2, rfl⟩ : ∃ m2, v = Type'.Complex m2 := by
          cases v <;> simp [Type'.is_complex] at hv ⊢
        have hm2 : sizeOf m2 ≤ n := by
          simp only [List.cons.sizeOf_spec, Prod.mk.sizeOf_spec,
            Type'.Complex.sizeOf_spec] at hm
          omega
        rw [flattenMapGo_cons_complex (some P) k m2 tl _]
        rw [flattenMapGo_cons_complex none k m2 tl _]
        rw [show parentOf (some P) k = P ++ "." ++ k from rfl]
        rw [show parentOf none k = k from rfl]
        have hinner1 : flattenMapGo (some (P ++ "." ++ k)) m2 [] =
            prefixKeys (P ++ "." ++ k) (flattenMapGo none m2 []) := by
          have := ih m2 hm2 (P ++ "." ++ k) []
          simpa [prefixKeys] using this
        have hinner2 : flattenMapGo (some k) m2 [] =
            prefixKeys k (flattenMapGo none m2 []) := by
          have := ih m2 hm2 k []
          simpa [prefixKeys] using this
        rw [hinner1, hinner2, prefixKeys_comp P k (flattenMapGo none m2 [])]
        rw [insertList_prefixed P (prefixKeys k (flattenMapGo none m2 [])) acc]
        exact ih tl htl P _

theorem flattenMapGo_some_eq (P : String) (m : List (String × Type')) :
    flattenMapGo (some P) m [] = prefixKeys P (flattenMapGo none m []) := by
  have := flattenMapGo_prefixed (sizeOf m) m le_rfl P []
  simpa [prefixKeys] using this

/-!
Lemmas: the well-formedness predicate implies sortedness and
nonempty-`Complex`-ness, and splitting a path determines the string.
-/

theorem wfMap_cons (k : String) (v : Type') (rest : Smap)
    (h : wfMap ((k, v) :: rest) = true) :
    dotFree k = true ∧ wfVal v = true ∧ wfMap rest = true ∧
    (∀ k2 v2 tl2, rest = (k2, v2) :: tl2 → keyLt k k2 = true) := by
  cases rest with
  | nil =>
    simp only [wfMap, Bool.and_true, Bool.and_eq_true] at h
    exact ⟨h.1, h.2, rfl, fun k2 v2 tl2 hc => by cases hc⟩
  | cons e2 tl =>
    obtain ⟨k2, v2⟩ := e2
    simp only [wfMap, Bool.and_eq_true] at h
    refine ⟨h.1.1.1, h.1.1.2, ?_, ?_⟩
    · simp only [wfMap, Bool.and_eq_true]
      exact h.2
    · intro k3 v3 tl3 heq
      injection heq with he1 he2
      injection he1 with ha hb
      rw [← ha]
      exact h.1.2

theorem wfVal_complex (m : Smap) (h : wfVal (Type'.Complex m) = true) :
    m ≠ [] ∧ wfMap m = true := by
  simp only [wfVal, Bool.and_eq_true] at h
  refine ⟨?_, h.2⟩
  intro hc
  subst hc
  simp [List.isEmpty] at h

theorem wfMap_lt_all : ∀ (rest : Smap) (k : String) (v : Type'),
    wfMap ((k, v) :: rest) = true → ∀ e ∈ rest, keyLt k e.1 = true := by
  intro rest
  induction rest with
  | nil =>
    intro k v _ e he
    cases he
  | cons e2 tl ih =>
    obtain ⟨k2, v2⟩ := e2
    intro k v h e he
    obtain ⟨_, _, hrest, hlt⟩ := wfMap_cons k v ((k2, v2) :: tl) h
    have hk2 : keyLt k k2 = true := hlt k2 v2 tl rfl
    rcases List.mem_cons.mp he with rfl | htl
    · exact hk2
    · exact keyLt_trans hk2 (ih k2 v2 hrest e htl)

theorem wfMap_sorted : ∀ (m : Smap), wfMap m = true → sortedMap m := by
  intro m
  induction m with
  | nil =>
    intro _
    exact List.Pairwise.nil
  | cons e tl ih =>
    obtain ⟨k, v⟩ := e
    intro h
    obtain ⟨_, _, hrest, _⟩ := wfMap_cons k v tl h
    unfold sortedMap
    rw [List.pairwise_cons]
    exact ⟨fun e2 he2 => wfMap_lt_all tl k v h e2 he2, ih hrest⟩

theorem wf_ne (n : Nat) :
    (∀ v : Type', sizeOf v ≤ n → wfVal v = true → neVal v = true) ∧
    (∀ m : Smap, sizeOf m ≤ n → wfMap m = true → neMap m = true) := by
  induction n with
  | zero =>
    constructor
    · intro v hv
      exfalso
      cases v <;> simp at hv
    · intro m hm _
      cases m with
      | nil => rfl
      | cons e tl =>
        exfalso
        simp only [List.cons.sizeOf_spec] at hm
        omega
  | succ n ih =>
    obtain ⟨ihv, ihm⟩ := ih
    constructor
    · intro v hv hwf
      cases v with
      | Complex m =>
        obtain ⟨hne, hm⟩ := wfVal_complex m hwf
        have hsz : sizeOf m ≤ n := by
          simp only [Type'.Complex.sizeOf_spec] at hv
          omega
        simp only [neVal, Bool.and_eq_true]
        constructor
        · cases m with
          | nil => exact absurd rfl hne
          | cons e tl => rfl
        · exact ihm m hsz hm
      | Text s => rfl
      | Switch b => rfl
      | Int i => rfl
      | Float f => rfl
      | Array l => rfl
      | None => rfl
    · intro m hm hwf
      cases m with
      | nil => rfl
      | cons e tl =>
        obtain ⟨k, v⟩ := e
        obtain ⟨_, hv, htl, _⟩ := wfMap_cons k v tl hwf
        have hsz : sizeOf v ≤ n ∧ sizeOf tl ≤ n := by
          simp only [List.cons.sizeOf_spec, Prod.mk.sizeOf_spec] at hm
          omega
        simp only [neMap, Bool.and_eq_true]
        exact ⟨ihv v hsz.1 hv, ihm tl hsz.2 htl⟩

theorem wfMap_neMap (m : Smap) (h : wfMap m = true) : neMap m = true :=
  (wf_ne (sizeOf m)).2 m le_rfl h

theorem splitPath_map_data (x : String) :
    (splitPath x).map String.data = splitDot x.data := by
  unfold splitPath
  rw [List.map_map]
  exact List.map_id _

theorem joinDot_splitPath (x : String) :
    String.mk (joinDotChars ((splitPath x).map String.data)) = x := by
  rw [splitPath_map_data, joinDot_splitDot]

theorem splitPath_single (x k : String) (h : splitPath x = [k]) : x = k := by
  have := joinDot_splitPath x
  rw [h] at this
  simpa [joinDotChars, string_mk_data] using this.symm

theorem splitPath_pieces_dotFree (x : String) :
    ∀ p ∈ splitPath x, dotFree p = true := by
  intro p hp
  unfold splitPath at hp
  rcases List.mem_map.mp hp with ⟨cs, hcs, rfl⟩
  have hdot : '.' ∉ cs := splitDot_pieces_dotFree x.data cs hcs
  unfold dotFree
  simp only [Bool.not_eq_true']
  show (String.mk cs).data.contains '.' = false
  simpa using hdot

theorem splitPath_decomp (x k r : String) (rtl : List String)
    (h : splitPath x = k :: r :: rtl) :
    ∃ y : String, x = k ++ "." ++ y ∧ splitPath y = r :: rtl := by
  refine ⟨String.mk (joinDotChars ((r :: rtl).map String.data)), ?_, ?_⟩
  · have hx := joinDot_splitPath x
    rw [h] at hx
    have hdata : x.data = k.data ++ '.' :: joinDotChars ((r :: rtl).map String.data) := by
      conv_lhs => rw [← hx]
      rfl
    have : (k ++ "." ++ String.mk (joinDotChars ((r :: rtl).map String.data))).data =
        x.data := by
      rw [data_append, data_append, hdata]
      show k.data ++ ['.'] ++ _ = _
      simp
    exact (congrArg String.mk this).symm
  · have hdots : ∀ p ∈ (r :: rtl).map String.data, '.' ∉ p := by
      intro p hp
      have : p ∈ (splitPath x).map String.data := by
        rw [h, List.map_cons]
        exact List.mem_cons_of_mem _ hp
      rw [splitPath_map_data] at this
      exact splitDot_pieces_dotFree x.data p this
    unfold splitPath
    show ((splitDot (String.mk (joinDotChars ((r :: rtl).map String.data))).data).map
      String.mk) = r :: rtl
    rw [show (String.mk (joinDotChars ((r :: rtl).map String.data))).data =
      joinDotChars ((r :: rtl).map String.data) from rfl]
    rw [splitDot_joinDot _ (by simp) hdots]
    rw [List.map_map]
    exact List.map_id _

/-!
Lemmas: computation rules for `leafFind`, and the characterization of lookup
in a flat map as `leafFind` on the original tree.
-/

theorem getRest_nil (v : Type') : getRest v [] = some v := by
  cases v <;> rfl

theorem getSegsM_cons_ne (k : String) (v : Type') (tl : Smap) (s0 : String)
    (rest : List String) (h : s0 ≠ k) :
    getSegsM ((k, v) :: tl) (s0 :: rest) = getSegsM tl (s0 :: rest) := by
  simp [getSegsM, mapFind, h]

theorem getSegsM_cons_self (k : String) (v : Type') (tl : Smap)
    (rest : List String) :
    getSegsM ((k, v) :: tl) (k :: rest) = getRest v rest := by
  simp [getSegsM, mapFind]

theorem leafFind_cons_ne (k : String) (v : Type') (tl : Smap) (s0 : String)
    (rest : List String) (h : s0 ≠ k) :
    leafFind ((k, v) :: tl) (s0 :: rest) = leafFind tl (s0 :: rest) := by
  unfold leafFind
  rw [getSegsM_cons_ne k v tl s0 rest h]

theorem leafFind_leaf_nil (k : String) (v : Type') (tl : Smap)
    (hv : v.is_complex = false) :
    leafFind ((k, v) :: tl) [k] = some v := by
  unfold leafFind
  rw [getSegsM_cons_self, getRest_nil]
  simp [hv]

theorem leafFind_leaf_cons (k : String) (v : Type') (tl : Smap) (r : String)
    (rtl : List String) (hv : v.is_complex = false) :
    leafFind ((k, v) :: tl) (k :: r :: rtl) = none := by
  unfold leafFind
  rw [getSegsM_cons_self]
  cases v with
  | Complex m => simp [Type'.is_complex] at hv
  | Text s => rfl
  | Switch b => rfl
  | Int i => rfl
  | Float f => rfl
  | Array l => rfl
  | None => rfl

theorem leafFind_complex_nil (k : String) (m2 tl : Smap) :
    leafFind ((k, Type'.Complex m2) :: tl) [k] = none := by
  unfold leafFind
  rw [getSegsM_cons_self, getRest_nil]
  rfl

theorem leafFind_complex_cons (k : String) (m2 tl : Smap) (r : String)
    (rtl : List String) :
    leafFind ((k, Type'.Complex m2) :: tl) (k :: r :: rtl) = leafFind m2 (r :: rtl) := by
  unfold leafFind
  rw [getSegsM_cons_self, getRest_complex]

theorem flattenMapGo_find (n : Nat) : ∀ (m : List (String × Type')), sizeOf m ≤ n →
    wfMap m = true → ∀ (acc : Smap) (x : String),
    mapFind x (flattenMapGo none m acc) =
      match leafFind m (splitPath x) with
      | some w => some w
      | none => mapFind x acc := by
  induction n with
  | zero =>
    intro m hm
    cases m with
    | nil =>
      intro _ acc x
      rw [flattenMapGo_nil]
      cases hsp : splitPath x with
      | nil => exact absurd hsp (splitPath_ne_nil x)
      | cons s0 rest => rfl
    | cons hd tl =>
      exfalso
      simp only [List.cons.sizeOf_spec] at hm
      omega
  | succ n ih =>
    intro m hm hwf acc x
    cases m with
    | nil =>
      rw [flattenMapGo_nil]
      cases hsp : splitPath x with
      | nil => exact absurd hsp (splitPath_ne_nil x)
      | cons s0 rest => rfl
    | cons hd tl =>
      obtain ⟨k, v⟩ := hd
      obtain ⟨hkdf, hv, htl, _⟩ := wfMap_cons k v tl hwf
      have htl_sz : sizeOf tl ≤ n := by
        simp only [List.cons.sizeOf_spec, Prod.mk.sizeOf_spec] at hm
        omega
      have hktl : mapFind k tl = none :=
        mapFind_none_of_all_lt k tl (wfMap_lt_all tl k v hwf)
      cases hsp : splitPath x with
      | nil => exact absurd hsp (splitPath_ne_nil x)
      | cons s0 rest =>
        cases hvc : v.is_complex with
        | false =>
          rw [flattenMapGo_cons_leaf none k v tl acc hvc]
          rw [show parentOf none k = k from rfl]
          rw [ih tl htl_sz htl (mapInsert k v acc) x]
          rw [hsp]
          by_cases hs0k : s0 = k
          · subst hs0k
            have hlf_tl : leafFind tl (s0 :: rest) = none := by
              unfold leafFind
              simp [getSegsM, hktl]
            rw [hlf_tl]
            cases rest with
            | nil =>
              have hx : x = s0 := splitPath_single x s0 hsp
              subst hx
              rw [leafFind_leaf_nil x v tl hvc]
              show mapFind x (mapInsert x v acc) = some v
              exact mapFind_insert_self x v acc
            | cons r rtl =>
              rw [leafFind_leaf_cons s0 v tl r rtl hvc]
              have hxk : x ≠ s0 := by
                intro hc
                rw [hc, splitPath_of_dotFree s0 hkdf] at hsp
                cases hsp
              exact mapFind_insert_ne x s0 v acc hxk
          · rw [leafFind_cons_ne k v tl s0 rest (hs0k)]
            have hxk : x ≠ k := by
              intro hc
              rw [hc, splitPath_of_dotFree k hkdf] at hsp
              injection hsp with h1 h2
              exact hs0k h1.symm
            cases hlf : leafFind tl (s0 :: rest) with
            | some w => rfl
            | none => exact mapFind_insert_ne x k v acc hxk
        | true =>
          obtain ⟨m2, rfl⟩ : ∃ m2, v = Type'.Complex m2 := by
            cases v <;> simp [Type'.is_complex] at hvc ⊢
          obtain ⟨hm2ne, hm2wf⟩ := wfVal_complex m2 hv
          have hm2_sz : sizeOf m2 ≤ n := by
            simp only [List.cons.sizeOf_spec, Prod.mk.sizeOf_spec,
              Type'.Complex.sizeOf_spec] at hm
            omega
          have hFMs : sortedMap (flattenMapGo none m2 []) :=
            flattenMapGo_sorted m2 none [] List.Pairwise.nil
          rw [flattenMapGo_cons_complex none k m2 tl acc]
          rw [show parentOf none k = k from rfl]
          rw [flattenMapGo_some_eq k m2]
          rw [ih tl htl_sz htl (insertList (prefixKeys k (flattenMapGo none m2 [])) acc) x]
          rw [hsp]
          by_cases hs0k : s0 = k
          · subst hs0k
            have hlf_tl : leafFind tl (s0 :: rest) = none := by
              unfold leafFind
              simp [getSegsM, hktl]
            rw [hlf_tl]
            cases rest with
            | nil =>
              have hx : x = s0 := splitPath_single x s0 hsp
              subst hx
              rw [leafFind_complex_nil x m2 tl]
              exact insertList_find_ne _ acc x (by
                intro e he hc
                rcases prefixKeys_mem he with ⟨y, w, rfl, _⟩
                exact ne_append_dot x y hc.symm)
            | cons r rtl =>
              rw [leafFind_complex_cons s0 m2 tl r rtl]
              obtain ⟨y, rfl, hsy⟩ := splitPath_decomp x s0 r rtl hsp
              have hin := ih m2 hm2_sz hm2wf [] y
              rw [hsy] at hin
              cases hlf : leafFind m2 (r :: rtl) with
              | some w =>
                have hyFM : mapFind y (flattenMapGo none m2 []) = some w := by
                  rw [hin, hlf]
                have hxPK : mapFind (s0 ++ "." ++ y)
                    (prefixKeys s0 (flattenMapGo none m2 [])) = some w := by
                  rw [prefixKeys_find_prefixed]
                  exact hyFM
                exact overlay_find_of_mem _ acc (s0 ++ "." ++ y) w
                  (prefixKeys_sorted s0 _ hFMs) hxPK
              | none =>
                have hyFM : mapFind y (flattenMapGo none m2 []) = none := by
                  rw [hin, hlf]
                  rfl
                refine insertList_find_ne _ acc (s0 ++ "." ++ y) ?_
                intro e he hc
                rcases prefixKeys_mem he with ⟨y2, w2, rfl, hmem2⟩
                have hy2 : y2 = y := append_dot_inj s0 y2 y hc
                subst hy2
                rw [find_eq_of_mem _ y2 w2 hFMs hmem2] at hyFM
                cases hyFM
          · rw [leafFind_cons_ne k (Type'.Complex m2) tl s0 rest hs0k]
            cases hlf : leafFind tl (s0 :: rest) with
            | some w => rfl
            | none =>
              refine insertList_find_ne _ acc x ?_
              intro e he hc
              rcases prefixKeys_mem he with ⟨y2, w2, rfl, _⟩
              have hfx : firstSeg x = s0 := by
                unfold firstSeg
                rw [hsp]
                rfl
              rw [← hc] at hfx
              rw [firstSeg_append_dot k y2, firstSeg_of_dotFree k hkdf] at hfx
              exact hs0k hfx.symm

/-!
Lemmas: supporting facts for inverting the `from_flat` fold — sortedness of
the fold, lookup through a key-filtered map, and the effect of the fold on a
group of bindings sharing their first segment.
-/

theorem find_mem : ∀ (l : Smap) (k : String) (w : Type'),
    mapFind k l = some w → (k, w) ∈ l := by
  intro l
  induction l with
  | nil =>
    intro k w h
    cases h
  | cons e tl ih =>
    obtain ⟨k', v'⟩ := e
    intro k w h
    by_cases hk : k = k'
    · subst hk
      rw [mapFind, if_pos rfl] at h
      injection h with h'
      rw [← h']
      exact List.mem_cons_self _ _
    · rw [mapFind, if_neg hk] at h
      exact List.mem_cons_of_mem _ (ih k w h)

theorem wfMap_mem : ∀ (m : Smap) (b : String) (v : Type'),
    wfMap m = true → (b, v) ∈ m → dotFree b = true ∧ wfVal v = true := by
  intro m
  induction m with
  | nil =>
    intro b v _ hmem
    cases hmem
  | cons e tl ih =>
    obtain ⟨k, w⟩ := e
    intro b v hwf hmem
    obtain ⟨hkdf, hw, htl, _⟩ := wfMap_cons k w tl hwf
    rcases List.mem_cons.mp hmem with heq | hmem2
    · injection heq with h1 h2
      subst h1
      subst h2
      exact ⟨hkdf, hw⟩
    · exact ih b v htl hmem2

theorem setSegs_sorted (path : List String) (g : Smap) (v : Type')
    (h : sortedMap g) : sortedMap (setSegs g path v) := by
  cases path with
  | nil => exact h
  | cons s rest =>
    cases rest with
    | nil => exact mapInsert_sorted s v g h
    | cons r rtl => exact mapInsert_sorted s _ g h

theorem foldSetSegs_sorted : ∀ (l : Smap) (g : Smap), sortedMap g →
    sortedMap (foldSetSegs g l) := by
  intro l
  induction l with
  | nil =>
    intro g h
    exact h
  | cons e tl ih =>
    intro g h
    show sortedMap (foldSetSegs (setSegs g (splitPath e.1) e.2) tl)
    exact ih _ (setSegs_sorted (splitPath e.1) g e.2 h)

theorem find_filter_headI (c z : String) : ∀ (l : Smap),
    mapFind z (l.filter (fun e => (splitPath e.1).headI = c)) =
      if (splitPath z).headI = c then mapFind z l else none := by
  intro l
  induction l with
  | nil =>
    by_cases hz : (splitPath z).headI = c <;> simp [hz, mapFind]
  | cons e tl ih =>
    obtain ⟨k', v'⟩ := e
    by_cases hz : (splitPath z).headI = c
    · rw [if_pos hz]
      by_cases hk : z = k'
      · subst hk
        rw [List.filter_cons_of_pos (by simpa using hz)]
        rw [mapFind, if_pos rfl, mapFind, if_pos rfl]
      · by_cases hk' : (splitPath k').headI = c
        · rw [List.filter_cons_of_pos (by simpa using hk')]
          rw [mapFind, if_neg hk, mapFind, if_neg hk, ih, if_pos hz]
        · rw [List.filter_cons_of_neg (by simpa using hk')]
          rw [ih, if_pos hz, mapFind, if_neg hk]
    · rw [if_neg hz]
      by_cases hk' : (splitPath k').headI = c
      · rw [List.filter_cons_of_pos (by simpa using hk')]
        have hk : z ≠ k' := by
          intro hc
          rw [hc] at hz
          exact hz hk'
        rw [mapFind, if_neg hk, ih, if_neg hz]
      · rw [List.filter_cons_of_neg (by simpa using hk')]
        rw [ih, if_neg hz]

theorem prefixKeys_find_none (c z : String) (h : ∀ y, z ≠ c ++ "." ++ y) :
    ∀ (l : Smap), mapFind z (prefixKeys c l) = none := by
  intro l
  induction l with
  | nil => rfl
  | cons e tl ih =>
    show mapFind z ((c ++ "." ++ e.1, e.2) :: prefixKeys c tl) = none
    rw [mapFind, if_neg (h e.1)]
    exact ih

theorem splitPath_cons_of_dotFree (c y : String) (h : dotFree c = true) :
    splitPath (c ++ "." ++ y) = c :: splitPath y := by
  rw [splitPath_append_dot, splitPath_of_dotFree c h]
  rfl

theorem applyGroup_cons (cur : Option Type') (a : String) (b : Type') (tl : Smap) :
    applyGroup cur ((a, b) :: tl) = applyGroup (some (bucketStep cur (splitPath a) b)) tl :=
  rfl

theorem applyGroup_prefixed (c : String) (hc : dotFree c = true) :
    ∀ (l : Smap) (cur : Option Type'), l ≠ [] →
    applyGroup cur (prefixKeys c l) =
      some (Type'.Complex (foldSetSegs (complexOrEmpty cur) l)) := by
  intro l
  induction l with
  | nil =>
    intro cur h
    exact absurd rfl h
  | cons e tl ih =>
    intro cur _
    show applyGroup cur ((c ++ "." ++ e.1, e.2) :: prefixKeys c tl) = _
    rw [applyGroup_cons]
    rw [splitPath_cons_of_dotFree c e.1 hc]
    cases hsp : splitPath e.1 with
    | nil => exact absurd hsp (splitPath_ne_nil e.1)
    | cons r rtl =>
      rw [show bucketStep cur (c :: r :: rtl) e.2 =
        Type'.Complex (setSegs (complexOrEmpty cur) (r :: rtl) e.2) from rfl]
      cases tl with
      | nil =>
        rw [show foldSetSegs (complexOrEmpty cur) [e] =
          setSegs (complexOrEmpty cur) (splitPath e.1) e.2 from rfl, hsp]
        rfl
      | cons f ftl =>
        rw [ih (some (Type'.Complex (setSegs (complexOrEmpty cur) (r :: rtl) e.2)))
          (by simp)]
        rw [show foldSetSegs (complexOrEmpty cur) (e :: f :: ftl) =
          foldSetSegs (setSegs (complexOrEmpty cur) (splitPath e.1) e.2) (f :: ftl)
          from rfl, hsp]
        rfl

theorem leafFind_single_leaf (m : Smap) (c : String) (v : Type')
    (hc : mapFind c m = some v) (hvc : v.is_complex = false) :
    leafFind m [c] = some v := by
  unfold leafFind
  have h1 : getSegsM m [c] = some v := by
    simp [getSegsM, hc, getRest_nil]
  rw [h1]
  simp [hvc]

theorem leafFind_single_complex (m : Smap) (c : String) (m2 : Smap)
    (hc : mapFind c m = some (Type'.Complex m2)) :
    leafFind m [c] = none := by
  unfold leafFind
  have h1 : getSegsM m [c] = some (Type'.Complex m2) := by
    simp [getSegsM, hc, getRest_nil]
  rw [h1]
  rfl

theorem leafFind_step (m : Smap) (c : String) (m2 : Smap) (r : String)
    (rtl : List String) (hc : mapFind c m = some (Type'.Complex m2)) :
    leafFind m (c :: r :: rtl) = leafFind m2 (r :: rtl) := by
  unfold leafFind
  have h1 : getSegsM m (c :: r :: rtl) = getSegsM m2 (r :: rtl) := by
    simp [getSegsM, hc, getRest_complex]
  rw [h1]

theorem leafFind_none_of_find_none (m : Smap) (c : String)
    (hc : mapFind c m = none) (rest : List String) :
    leafFind m (c :: rest) = none := by
  unfold leafFind
  simp [getSegsM, hc]

theorem flattenMapGo_first_seg (m : List (String × Type')) (hwf : wfMap m = true)
    (e : String × Type') (he : e ∈ flattenMapGo none m []) :
    ∃ b v, (b, v) ∈ m ∧ firstSeg e.1 = b ∧
      ((v.is_complex = false ∧ e.1 = b) ∨
       (v.is_complex = true ∧ ∃ y, e.1 = b ++ "." ++ y)) := by
  rcases flattenMapGo_keys (sizeOf m) m le_rfl none [] e he with h0 | ⟨b, v, hbm, hshape⟩
  · cases h0
  · have hbdf := (wfMap_mem m b v hwf hbm).1
    refine ⟨b, v, hbm, ?_, ?_⟩
    · rcases hshape with ⟨_, he1⟩ | ⟨_, y, he1⟩
      · rw [he1]
        show firstSeg (parentOf none b) = b
        exact firstSeg_of_dotFree b hbdf
      · rw [he1]
        show firstSeg (parentOf none b ++ "." ++ y) = b
        rw [firstSeg_append_dot]
        exact firstSeg_of_dotFree b hbdf
    · rcases hshape with ⟨hl, he1⟩ | ⟨hcx, y, he1⟩
      · exact Or.inl ⟨hl, he1⟩
      · exact Or.inr ⟨hcx, y, he1⟩

theorem foldSetSegs_flatten (n : Nat) : ∀ (m : List (String × Type')), sizeOf m ≤ n →
    wfMap m = true → foldSetSegs [] (flattenMapGo none m []) = m := by
  induction n with
  | zero =>
    intro m hm _
    cases m with
    | nil =>
      rw [flattenMapGo_nil]
      rfl
    | cons hd tl =>
      exfalso
      simp only [List.cons.sizeOf_spec] at hm
      omega
  | succ n ih =>
    intro m hm hwf
    have hms : sortedMap m := wfMap_sorted m hwf
    have hLs : sortedMap (flattenMapGo none m []) :=
      flattenMapGo_sorted m none [] List.Pairwise.nil
    apply sorted_ext _ m (foldSetSegs_sorted _ [] List.Pairwise.nil) hms
    intro c
    rw [foldSetSegs_find]
    cases hc : mapFind c m with
    | none =>
      have hfilter : (flattenMapGo none m []).filter
          (fun e => (splitPath e.1).headI = c) = [] := by
        rw [List.filter_eq_nil_iff]
        intro e he
        obtain ⟨b, w, hbm, hfb, _⟩ := flattenMapGo_first_seg m hwf e he
        simp only [decide_eq_true_eq]
        intro hfc
        have hfc' : firstSeg e.1 = c := hfc
        have hbc : b = c := hfb.symm.trans hfc'
        subst hbc
        have h1 := find_eq_of_mem m b w hms hbm
        rw [hc] at h1
        cases h1
      rw [hfilter]
      rfl
    | some v =>
      have hcm : (c, v) ∈ m := find_mem m c v hc
      have hcdf : dotFree c = true := (wfMap_mem m c v hwf hcm).1
      cases hvc : v.is_complex with
      | false =>
        have hfindL : mapFind c (flattenMapGo none m []) = some v := by
          rw [flattenMapGo_find (sizeOf m) m le_rfl hwf [] c]
          rw [splitPath_of_dotFree c hcdf]
          rw [leafFind_single_leaf m c v hc hvc]
        have hfilter : (flattenMapGo none m []).filter
            (fun e => (splitPath e.1).headI = c) = [(c, v)] := by
          apply filter_eq_single _ (flattenMapGo none m []) c v hLs hfindL
          intro e he
          constructor
          · intro hp
            have hp' : firstSeg e.1 = c := by simpa using hp
            obtain ⟨b, w, hbm, hfb, hshape⟩ := flattenMapGo_first_seg m hwf e he
            have hbc : b = c := hfb.symm.trans hp'
            subst hbc
            have hwv : w = v := by
              have h1 := find_eq_of_mem m b w hms hbm
              rw [hc] at h1
              injection h1 with h2
              exact h2.symm
            rcases hshape with ⟨_, he1⟩ | ⟨hcx, y, he1⟩
            · exact he1
            · rw [hwv, hvc] at hcx
              cases hcx
          · intro he1
            simp only [decide_eq_true_eq]
            rw [he1, splitPath_of_dotFree c hcdf]
            rfl
        rw [hfilter]
        show some (bucketStep (mapFind c ([] : Smap)) (splitPath c) v) = some v
        rw [splitPath_of_dotFree c hcdf]
        rfl
      | true =>
        obtain ⟨m2, rfl⟩ : ∃ m2, v = Type'.Complex m2 := by
          cases v <;> simp [Type'.is_complex] at hvc ⊢
        have hv2 : wfVal (Type'.Complex m2) = true := (wfMap_mem m c _ hwf hcm).2
        obtain ⟨hm2ne, hm2wf⟩ := wfVal_complex m2 hv2
        have hm2sz : sizeOf m2 ≤ n := by
          have hlt := List.sizeOf_lt_of_mem hcm
          simp only [Prod.mk.sizeOf_spec, Type'.Complex.sizeOf_spec] at hlt
          omega
        have hFMs : sortedMap (flattenMapGo none m2 []) :=
          flattenMapGo_sorted m2 none [] List.Pairwise.nil
        have hfilter : (flattenMapGo none m []).filter
            (fun e => (splitPath e.1).headI = c) =
            prefixKeys c (flattenMapGo none m2 []) := by
          apply sorted_ext _ _ (List.Pairwise.filter _ hLs)
            (prefixKeys_sorted c _ hFMs)
          intro z
          rw [find_filter_headI c z (flattenMapGo none m [])]
          by_cases hz : (splitPath z).headI = c
          · rw [if_pos hz]
            cases hsp : splitPath z with
            | nil => exact absurd hsp (splitPath_ne_nil z)
            | cons s0 rest =>
              have hs0 : s0 = c := by
                rw [hsp] at hz
                exact hz
              subst hs0
              cases rest with
              | nil =>
                have hzc : z = s0 := splitPath_single z s0 hsp
                subst hzc
                rw [flattenMapGo_find (sizeOf m) m le_rfl hwf [] z]
                rw [splitPath_of_dotFree z hcdf]
                rw [leafFind_single_complex m z m2 hc]
                rw [prefixKeys_find_self]
                rfl
              | cons r rtl =>
                obtain ⟨y, rfl, hsy⟩ := splitPath_decomp z s0 r rtl hsp
                rw [flattenMapGo_find (sizeOf m) m le_rfl hwf [] (s0 ++ "." ++ y)]
                rw [hsp]
                rw [leafFind_step m s0 m2 r rtl hc]
                rw [prefixKeys_find_prefixed s0 y (flattenMapGo none m2 [])]
                rw [flattenMapGo_find (sizeOf m2) m2 le_rfl hm2wf [] y]
                rw [hsy]
                cases leafFind m2 (r :: rtl) <;> rfl
          · rw [if_neg hz]
            symm
            apply prefixKeys_find_none c z
            intro y hzy
            rw [hzy, splitPath_cons_of_dotFree c y hcdf] at hz
            exact hz rfl
        rw [hfilter]
        rw [applyGroup_prefixed c hcdf (flattenMapGo none m2 []) (mapFind c [])
          (flattenMapGo_ne (sizeOf m2) m2 le_rfl none []
            (wfMap_neMap m2 hm2wf) (Or.inl hm2ne))]
        show some (Type'.Complex (foldSetSegs [] (flattenMapGo none m2 []))) =
          some (Type'.Complex m2)
        rw [ih m2 hm2sz hm2wf]

/-- C5 (counterexample): the tree `{a: Complex {}}` has a single top-level
key, so no top-level key is a strict prefix of another (the claim's only
proviso), yet flatten drops the empty `Complex` entirely and `from_flat`
rebuilds the empty tree, which is not structurally equal to the original. -/
theorem C5_counterexample :
    (∀ e1 ∈ ([("a", Type'.Complex [])] : Smap),
      ∀ e2 ∈ ([("a", Type'.Complex [])] : Smap),
      e1.1 ≠ e2.1 → ¬ ∃ r : String, e2.1 = e1.1 ++ r) ∧
    Settings.from_flat (Settings.flatten ⟨[("a", Type'.Complex [])]⟩) ≠
      (⟨[("a", Type'.Complex [])]⟩ : Settings) := by
  constructor
  · intro e1 h1 e2 h2 hne
    rw [List.mem_singleton] at h1 h2
    subst h1
    subst h2
    exact absurd rfl hne
  · intro h
    have h1 : Settings.flatten ⟨[("a", Type'.Complex [])]⟩ = ⟨[]⟩ := by
      unfold Settings.flatten
      rw [flattenMapGo_cons_complex none "a" [] [] []]
      rw [flattenMapGo_nil, flattenMapGo_nil]
      rfl
    rw [h1] at h
    have h2 : (⟨[]⟩ : Settings) = ⟨[("a", Type'.Complex [])]⟩ := h
    have h3 : ([] : Smap) = [("a", Type'.Complex [])] := congrArg Settings.global h2
    cases h3

/-- C5 (amended): for every tree whose canonical map is well-formed — at
every `Complex` nesting level the keys are dot-free, the bindings are in
strictly increasing key order, and no `Complex` node is empty — `flatten`
followed by `from_flat` rebuilds a tree structurally equal to the original.
(The claim's own proviso is not sufficient: a dot-free single-key tree with an
empty `Complex`, or a single key containing a dot, breaks the round trip while
having no strict-prefix pair; see the counterexample.) -/
theorem C5_flatten_from_flat (t : Settings) (h : wfMap t.global = true) :
    Settings.from_flat (Settings.flatten t) = t := by
  cases t with
  | mk g =>
    show Settings.from_flat ⟨flattenMapGo none g []⟩ = ⟨g⟩
    rw [from_flat_eq]
    exact congrArg Settings.mk (foldSetSegs_flatten (sizeOf g) g le_rfl h)

theorem C5_flatten_from_flat_witness :
    wfMap (Settings.mk [("a", Type'.Int 1),
      ("b", Type'.Complex [("c", Type'.Text "x")])]).global = true ∧
    Settings.from_flat (Settings.flatten ⟨[("a", Type'.Int 1),
      ("b", Type'.Complex [("c", Type'.Text "x")])]⟩) =
      ⟨[("a", Type'.Int 1), ("b", Type'.Complex [("c", Type'.Text "x")])]⟩ :=
  ⟨by decide, C5_flatten_from_flat _ (by decide)⟩
